import Mathlib

/-!
Verification of the `maram` directory-tree walker.

The development shallowly embeds the walker core (`src/walker.rs`,
`src/filters.rs`, `src/stats.rs`) over an explicit model of a directory
tree.  I/O is modelled by flags on each node: `statOk` says whether
`std::fs::symlink_metadata` on the node's path succeeds, `entryMetaOk`
whether `DirEntry::metadata` succeeds while the parent directory is being
listed, and `readable` whether reading the directory itself
(`fs::read_dir` / `opendir`) succeeds.  Compiled regexes are modelled by
their match predicate on the path string, a path by its list of
components, and time by natural-number seconds.
-/

namespace Maram

/-- Metadata of one filesystem object as the program can observe it.
`modified` is the mtime (`none` models a failed `metadata.modified()`
read); `content` is the file's byte string, so `metadata.len()` is its
length. -/
structure Meta where
  statOk : Bool
  entryMetaOk : Bool
  modified : Option Nat
  is_symlink : Bool
  is_executable : Bool
  content : List Nat
deriving Repr, DecidableEq

/-- A directory tree: `readable` models whether listing the directory
succeeds.  Real directory streams never hand back the pseudo entries
`.` and `..`, so they are not part of the model. -/
inductive FS where
  | file (m : Meta)
  | dir (m : Meta) (readable : Bool) (children : List (String × FS))
deriving Repr

def FS.meta : FS → Meta
  | .file m => m
  | .dir m _ _ => m

def FS.isDir : FS → Bool
  | .file _ => false
  | .dir _ _ _ => true

def FS.childList : FS → List (String × FS)
  | .file _ => []
  | .dir _ _ cs => cs

def FS.readableB : FS → Bool
  | .file _ => false
  | .dir _ r _ => r

/-- `metadata.len()`. -/
def Meta.len (m : Meta) : Nat := m.content.length

mutual
/-- Number of nodes of a tree (computable, used as recursion fuel by the
walk models: it strictly exceeds every descendant's size). -/
def FS.size : FS → Nat
  | .file _ => 1
  | .dir _ _ cs => FS.sizeL cs + 1
def FS.sizeL : List (String × FS) → Nat
  | [] => 0
  | (_, c) :: rest => FS.size c + FS.sizeL rest + 1
end

/-- Sorting criteria (`SortBy` in `filters.rs`). -/
inductive SortBy where
  | name
  | size
  | time
  | ext
  | lines
deriving Repr, DecidableEq

/-- `FilterOptions` from `filters.rs`.  The source field `include` is a
Lean keyword, so it is called `incl` here; regexes are modelled by their
match predicate on the rendered path string. -/
structure FilterOptions where
  incl : Option (String → Bool)
  exclude : Option (String → Bool)
  only_dirs : Bool
  only_files : Bool
  min_size : Option Nat
  max_size : Option Nat
  newer_than : Option Nat
  older_than : Option Nat
  gitignore : Bool
  show_hidden : Bool
  search : Option (String → Bool)
  max_depth : Option Nat
  max_dirs : Option Nat
  max_files : Option Nat
  sort_by : Option SortBy
  reverse_sort : Bool

/-- `FilterOptions::default`. -/
def FilterOptions.default : FilterOptions :=
  ⟨none, none, false, false, none, none, none, none, false, false, none,
   none, none, none, none, false⟩

/-- `Path::to_string_lossy` over a component list. -/
def pathStr (p : List String) : String := String.intercalate "/" p

/-- `str::starts_with('.')` on a name: its first character is the dot. -/
def startsDot (s : String) : Bool :=
  match s.data with
  | [] => false
  | c :: _ => c == '.'

/-- The hidden check of `should_include`: `path.file_name()` starts with
the dot marker (skipped when the path has no file name). -/
def hiddenName (p : List String) : Bool :=
  match p.getLast? with
  | some n => startsDot n
  | none => false

/-- `FilterOptions::matches_search`. -/
def FilterOptions.matches_search (f : FilterOptions) (p : List String) : Bool :=
  match f.search with
  | some r => r (pathStr p)
  | none => true

/-- `FilterOptions::should_include` (`filters.rs:147`), with `is_dir`
passed in for `metadata.is_dir()` and `now` the value of
`SystemTime::now()`; `now.duration_since(modified)` succeeds exactly when
`modified ≤ now` and then yields the age `now - modified`. -/
def FilterOptions.should_include (f : FilterOptions) (p : List String)
    (is_dir : Bool) (m : Meta) (now : Nat) : Bool :=
  if f.only_dirs && !is_dir then false
  else if f.only_files && is_dir then false
  else if !f.show_hidden && hiddenName p then false
  else if !is_dir && f.search.isSome && !(f.matches_search p) then false
  else if (match f.incl with | some r => !r (pathStr p) | none => false) then false
  else if (match f.exclude with | some r => r (pathStr p) | none => false) then false
  else if !is_dir && (match f.min_size with | some mn => decide (m.len < mn) | none => false) then false
  else if !is_dir && (match f.max_size with | some mx => decide (mx < m.len) | none => false) then false
  else
    match m.modified with
    | some t =>
      if t ≤ now then
        if (match f.newer_than with | some b => decide (b < now - t) | none => false) then false
        else if (match f.older_than with | some b => decide (now - t < b) | none => false) then false
        else true
      else true
    | none => true

/-- `is_binary_file` (`stats.rs:129`): examine the first 512 bytes. -/
def is_binary_file (content : List Nat) : Bool :=
  let buffer := content.take 512
  if buffer.length == 0 then false
  else if 0 < buffer.countP (fun b => b == 0) then true
  else
    let text_chars := buffer.countP (fun b =>
      b == 10 || b == 13 || b == 9 || (32 ≤ b && b ≤ 126) || 128 ≤ b)
    decide (text_chars < buffer.length * 95 / 100)

/-- `count_lines` (`stats.rs:79`): the chunked read of the source reduces
to one scan of the byte string; `metadata.len()` is the content length. -/
def count_lines (content : List Nat) (max_size : Nat) : Nat :=
  if max_size < content.length then 0
  else if is_binary_file content then 0
  else
    let count := content.countP (fun b => b == 10)
    if !content.isEmpty && content.getLastD 0 != 10 then count + 1 else count

/-- `TreeEntry` from `walker.rs` (a recursive structure, hence an
inductive with one constructor). -/
inductive TreeEntry where
  | mk (name : String) (path : List String) (size : Nat) (line_count : Nat)
      (modified : Nat) (is_dir : Bool) (is_symlink : Bool)
      (is_executable : Bool) (children : List TreeEntry) (depth : Nat)
deriving Repr

def TreeEntry.name : TreeEntry → String
  | .mk n _ _ _ _ _ _ _ _ _ => n

def TreeEntry.path : TreeEntry → List String
  | .mk _ p _ _ _ _ _ _ _ _ => p

def TreeEntry.size : TreeEntry → Nat
  | .mk _ _ s _ _ _ _ _ _ _ => s

def TreeEntry.line_count : TreeEntry → Nat
  | .mk _ _ _ lc _ _ _ _ _ _ => lc

def TreeEntry.modified : TreeEntry → Nat
  | .mk _ _ _ _ md _ _ _ _ _ => md

def TreeEntry.is_dir : TreeEntry → Bool
  | .mk _ _ _ _ _ d _ _ _ _ => d

def TreeEntry.children : TreeEntry → List TreeEntry
  | .mk _ _ _ _ _ _ _ _ ch _ => ch

def TreeEntry.depth : TreeEntry → Nat
  | .mk _ _ _ _ _ _ _ _ _ dep => dep

/-- Model of the source's in-place `parent.children` mutation. -/
def TreeEntry.withChildren : TreeEntry → List TreeEntry → TreeEntry
  | .mk n p s lc md d sl ex _ dep, ch => .mk n p s lc md d sl ex ch dep

/-- Walker mode (`WalkerMode` in `walker.rs`). -/
inductive WalkerMode where
  | FastPath
  | Standard
  | Full
deriving Repr, DecidableEq

/-- Rank of a mode in the Fast < Standard < Full escalation order. -/
def WalkerMode.rank : WalkerMode → Nat
  | .FastPath => 0
  | .Standard => 1
  | .Full => 2

/-- The `Walker` state.  `gitignore` is the loaded matcher
(`Gitignore::matched(path, is_dir).is_ignore()` modelled as a predicate
returning `true` when the path is ignored); it is `none` when loading was
not requested or degraded. -/
structure Walker where
  filter_opts : FilterOptions
  gitignore : Option (List String → Bool → Bool)
  thread_count : Nat
  max_file_size : Nat
  show_lines : Bool
  dir_sizes : Bool
  mode : WalkerMode

/-- `Walker::determine_mode` (`walker.rs:147`). -/
def Walker.determine_mode (f : FilterOptions)
    (g : Option (List String → Bool → Bool)) : WalkerMode :=
  if f.search.isSome || f.min_size.isSome || f.max_size.isSome ||
     f.newer_than.isSome || f.older_than.isSome || g.isSome then
    .Full
  else if f.incl.isSome || f.exclude.isSome || f.only_dirs || f.only_files ||
     f.sort_by.isSome || f.max_dirs.isSome || f.max_files.isSome then
    .Standard
  else
    .FastPath

/-- `Walker::enable_line_counting` (`walker.rs:131`). -/
def Walker.enable_line_counting (w : Walker) : Walker :=
  { w with
    show_lines := true,
    mode := match w.mode with | .FastPath => .Standard | m => m }

/-- `Walker::enable_dir_sizes` (`walker.rs:140`). -/
def Walker.enable_dir_sizes (w : Walker) : Walker :=
  { w with dir_sizes := true, mode := .Full }

/-- `Walker::should_include` (`walker.rs:484`): gitignore first, then the
filter options. -/
def Walker.should_include (w : Walker) (p : List String) (is_dir : Bool)
    (m : Meta) (now : Nat) : Bool :=
  match w.gitignore with
  | some gi =>
    if gi p is_dir then false else w.filter_opts.should_include p is_dir m now
  | none => w.filter_opts.should_include p is_dir m now

/-- `Walker::create_entry` (`walker.rs:359`); `metadata.is_file()` is
`!is_dir` in the two-kind model. -/
def Walker.create_entry (w : Walker) (p : List String) (is_dir : Bool)
    (m : Meta) (depth : Nat) : TreeEntry :=
  let name := p.getLastD ""
  let size := if is_dir then 0 else m.len
  let line_count :=
    if w.show_lines && !is_dir && size ≤ w.max_file_size then
      count_lines m.content w.max_file_size
    else 0
  .mk name p size line_count (m.modified.getD 0) is_dir m.is_symlink
    m.is_executable [] depth

/-- `Walker::process_entry` (`walker.rs:347`): `symlink_metadata` may
fail; a filtered-out entry yields `none`. -/
def Walker.process_entry (w : Walker) (now : Nat) (p : List String)
    (t : FS) (depth : Nat) : Except String (Option TreeEntry) :=
  if !t.meta.statOk then .error "symlink_metadata failed"
  else if !w.should_include p t.isDir t.meta now then .ok none
  else .ok (some (w.create_entry p t.isDir t.meta depth))

/-- The first loop of `read_directory` (`walker.rs:402`): read each
entry's metadata (an error aborts), apply the filters, and split the
survivors into directories and files keeping enumeration order. -/
def Walker.collectChildren (w : Walker) (now : Nat) (p : List String) :
    List (String × FS) → Except String (List (String × FS) × List (String × FS))
  | [] => .ok ([], [])
  | (n, c) :: rest =>
    if !c.meta.entryMetaOk then .error "DirEntry metadata failed"
    else
      match Walker.collectChildren w now p rest with
      | .error e => .error e
      | .ok (ds, fls) =>
        if !w.should_include (p ++ [n]) c.isDir c.meta now then .ok (ds, fls)
        else if c.isDir then .ok ((n, c) :: ds, fls)
        else .ok (ds, (n, c) :: fls)

/-- File-name extension with empty-string default
(`Path::new(name).extension().unwrap_or_default()`). -/
def extOf (s : String) : String :=
  let base := if s.startsWith "." then s.drop 1 else s
  match base.splitOn "." with
  | [] => ""
  | [_] => ""
  | parts => parts.getLastD ""

/-- `compare_entries` (`filters.rs:299`). -/
def compare_entries (a b : TreeEntry) (k : SortBy) (reverse : Bool) : Ordering :=
  let o :=
    match k with
    | .name => compare a.name b.name
    | .size => compare a.size b.size
    | .time => compare a.modified b.modified
    | .ext => (compare (extOf a.name) (extOf b.name)).then (compare a.name b.name)
    | .lines => compare a.line_count b.line_count
  if reverse then o.swap else o

/-- The temporary comparison record built for sorting
(`walker.rs:423-439`): note the raw `metadata.len()` is used even for
directories, unlike `create_entry`. -/
def sortRecord (p : List String) (depth : Nat) (n : String) (c : FS) : TreeEntry :=
  .mk n (p ++ [n]) c.meta.len 0 (c.meta.modified.getD 0) c.isDir
    c.meta.is_symlink c.meta.is_executable [] depth

/-- The sort stage of `read_directory` (`walker.rs:420-451`): with a sort
key, a stable sort of all filtered children together; otherwise
directories before files.  Each path stays paired with its node, which
models looking the path up again on the filesystem. -/
def Walker.orderEntries (w : Walker) (p : List String) (depth : Nat)
    (ds fls : List (String × FS)) : List (String × FS) :=
  match w.filter_opts.sort_by with
  | some k =>
    let recs := (ds ++ fls).map (fun x => (x, sortRecord p depth x.1 x.2))
    let sorted := recs.mergeSort (fun a b =>
      !(compare_entries a.2 b.2 k w.filter_opts.reverse_sort == Ordering.gt))
    sorted.map (fun x => x.1)
  | none => ds ++ fls

/-- The per-level cap loop of `read_directory` (`walker.rs:453-478`);
`path.is_dir()` is the node's kind in the model. -/
def limitEntries (f : FilterOptions) :
    List (String × FS) → Nat → Nat → List (String × FS)
  | [], _, _ => []
  | (n, c) :: rest, dir_count, file_count =>
    if c.isDir then
      if (match f.max_dirs with | some md => decide (md ≤ dir_count) | none => false) then
        limitEntries f rest dir_count file_count
      else (n, c) :: limitEntries f rest (dir_count + 1) file_count
    else
      if (match f.max_files with | some mf => decide (mf ≤ file_count) | none => false) then
        limitEntries f rest dir_count file_count
      else (n, c) :: limitEntries f rest dir_count (file_count + 1)

/-- `Walker::read_directory` (`walker.rs:396`): list, filter, sort,
cap.  `fs::read_dir` fails on an unreadable directory or a non-directory
path. -/
def Walker.read_directory (w : Walker) (now : Nat) (p : List String)
    (t : FS) (depth : Nat) : Except String (List (String × FS)) :=
  match t with
  | .file _ => .error "read_dir failed"
  | .dir _ false _ => .error "read_dir failed"
  | .dir _ true cs =>
    match w.collectChildren now p cs with
    | .error e => .error e
    | .ok (ds, fls) =>
      .ok (limitEntries w.filter_opts (w.orderEntries p depth ds fls) 0 0)

/-- Fuel-exhaustion marker of the fuelled recursions; every wrapper below
supplies `sizeOf` of the tree, which is always sufficient. -/
def fuelErr : String := "out of fuel"

/-- The child loop of `process_directory_children` (`walker.rs:305-322`)
with the per-child actions abstracted: a `process_entry` failure is
fatal unless ignore-rule mode is on (then it is only logged), a filtered
child is skipped, and a directory child is descended into with errors
always propagated. -/
def pdcStep (gitig : Bool)
    (procEnt : String × FS → Except String (Option TreeEntry))
    (descend : String × FS → Except String (List TreeEntry)) :
    List (String × FS) → Except String (List TreeEntry)
  | [] => .ok []
  | x :: rest =>
    match procEnt x with
    | .error e =>
      if gitig then pdcStep gitig procEnt descend rest else .error e
    | .ok none => pdcStep gitig procEnt descend rest
    | .ok (some entry) =>
      if entry.is_dir then
        match descend x with
        | .error e => .error e
        | .ok kids =>
          match pdcStep gitig procEnt descend rest with
          | .error e => .error e
          | .ok others => .ok (entry.withChildren kids :: others)
      else
        match pdcStep gitig procEnt descend rest with
        | .error e => .error e
        | .ok others => .ok (entry :: others)

/-- `Walker::process_directory_children` (`walker.rs:294`), fuelled: the
fuel only decreases one step per directory level and `sizeOf` of the
node always suffices.  Returns the computed `parent.children`. -/
def Walker.process_directory_children (w : Walker) (now : Nat) :
    Nat → List String → Nat → FS → Except String (List TreeEntry)
  | 0, _, _, _ => .error fuelErr
  | fuel + 1, p, pdepth, t =>
    if (match w.filter_opts.max_depth with | some d => decide (d ≤ pdepth) | none => false) then
      .ok []
    else
      match w.read_directory now p t (pdepth + 1) with
      | .error e => .error e
      | .ok out =>
        pdcStep w.filter_opts.gitignore
          (fun x => w.process_entry now (p ++ [x.1]) x.2 (pdepth + 1))
          (fun x =>
            Walker.process_directory_children w now fuel (p ++ [x.1]) (pdepth + 1) x.2)
          out

/-- The root's child computation inside `walk_standard`: children are
processed whenever the root is a directory, before and independently of
the root's own filter check. -/
def Walker.rootChildren (w : Walker) (now : Nat) (p : List String)
    (t : FS) : Except String (List TreeEntry) :=
  if t.isDir then w.process_directory_children now (FS.size t) p 0 t
  else .ok []

/-- `Walker::walk_standard` (`walker.rs:275`). -/
def Walker.walk_standard (w : Walker) (now : Nat) (p : List String)
    (t : FS) : Except String (List TreeEntry) :=
  if !t.meta.statOk then .error "symlink_metadata failed"
  else
    match w.rootChildren now p t with
    | .error e => .error e
    | .ok kids =>
      let root_entry := (w.create_entry p t.isDir t.meta 0).withChildren kids
      if w.should_include p t.isDir t.meta now || !kids.isEmpty then
        .ok [root_entry]
      else .ok []

/-- The child loop of `walk_fast_unix_recursive` (`walker.rs:228-265`):
hidden names are skipped, a child whose recursive walk fails is silently
dropped, otherwise the first returned entry is kept. -/
def fastStep (show_hidden : Bool)
    (descend : String × FS → Except String (List TreeEntry)) :
    List (String × FS) → List TreeEntry
  | [] => []
  | (n, c) :: rest =>
    if !show_hidden && startsDot n then fastStep show_hidden descend rest
    else
      match descend (n, c) with
      | .ok (e :: _) => e :: fastStep show_hidden descend rest
      | .ok [] => fastStep show_hidden descend rest
      | .error _ => fastStep show_hidden descend rest

/-- `Walker::walk_fast_unix_recursive` (`walker.rs:205`), fuelled like
the standard walk.  A failed `opendir` (unreadable directory) returns
the entry without children rather than an error. -/
def Walker.walk_fast_unix_recursive (w : Walker) :
    Nat → List String → Nat → FS → Except String (List TreeEntry)
  | 0, _, _, _ => .error fuelErr
  | fuel + 1, p, depth, t =>
    if (match w.filter_opts.max_depth with | some d => decide (d < depth) | none => false) then
      .ok []
    else if !t.meta.statOk then .error "symlink_metadata failed"
    else
      let entry := w.create_entry p t.isDir t.meta depth
      let kids :=
        if t.isDir &&
           (match w.filter_opts.max_depth with | some d => decide (depth < d) | none => true) then
          if t.readableB then
            fastStep w.filter_opts.show_hidden
              (fun x => Walker.walk_fast_unix_recursive w fuel (p ++ [x.1]) (depth + 1) x.2)
              t.childList
          else []
        else []
      .ok [entry.withChildren kids]

/-- `Walker::walk_fast_unix` / `walk_fast_path` on Unix (`walker.rs:197`). -/
def Walker.walk_fast_unix (w : Walker) (p : List String) (t : FS) :
    Except String (List TreeEntry) :=
  w.walk_fast_unix_recursive (FS.size t) p 0 t

/-- Strip the root path from an absolute path (`None` when the path does
not lie under the root). -/
def stripRoot : List String → List String → Option (List String)
  | [], p => some p
  | r :: rs, q :: qs => if r = q then stripRoot rs qs else none
  | _ :: _, [] => none

def lookupChild (n : String) : List (String × FS) → Option FS
  | [] => none
  | (m, c) :: rest => if m = n then some c else lookupChild n rest

/-- Resolve a root-relative path in the tree. -/
def FS.resolve : List String → FS → Option FS
  | [], t => some t
  | n :: rest, .dir _ _ cs =>
    match lookupChild n cs with
    | some c => FS.resolve rest c
    | none => none
  | _ :: _, .file _ => none

/-- The collection loop of `calculate_dir_size_recursive`
(`stats.rs:173-182`): a failed `entry.metadata()` aborts; directories
and file sizes are collected in enumeration order. -/
def collectDirsFiles : List (String × FS) → Except String (List FS × List Nat)
  | [] => .ok ([], [])
  | (_, c) :: rest =>
    if !c.meta.entryMetaOk then .error "DirEntry metadata failed"
    else
      match collectDirsFiles rest with
      | .error e => .error e
      | .ok (ds, fls) =>
        if c.isDir then .ok (c :: ds, fls) else .ok (ds, c.meta.len :: fls)

/-- The `dirs.par_iter().try_for_each` fan-out of `stats.rs:189-191`,
modelled by its sequential result: the first failing subtree aborts the
whole computation. -/
def sumSubdirs (g : FS → Except String Nat) : List FS → Except String Nat
  | [] => .ok 0
  | d :: rest =>
    match g d with
    | .error e => .error e
    | .ok a =>
      match sumSubdirs g rest with
      | .error e => .error e
      | .ok b => .ok (a + b)

/-- `calculate_dir_size_recursive` (`stats.rs:166`), fuelled: the atomic
accumulator of the source is the returned sum.  `fs::read_dir` fails on
an unreadable directory or a non-directory path. -/
def calculate_dir_size_recursive : Nat → FS → Except String Nat
  | 0, _ => .error fuelErr
  | _ + 1, .file _ => .error "read_dir failed"
  | _ + 1, .dir _ false _ => .error "read_dir failed"
  | fuel + 1, .dir _ true cs =>
    match collectDirsFiles cs with
    | .error e => .error e
    | .ok (ds, fls) =>
      match sumSubdirs (fun d => calculate_dir_size_recursive fuel d) ds with
      | .error e => .error e
      | .ok n => .ok (fls.sum + n)

/-- `calculate_dir_size` (`stats.rs:157`): resolve the path under the
filesystem root and total the descendant file sizes. -/
def calculate_dir_size (fsRoot : FS) (rootPath p : List String) :
    Except String Nat :=
  match stripRoot rootPath p with
  | none => .error "read_dir failed"
  | some rel =>
    match FS.resolve rel fsRoot with
    | none => .error "read_dir failed"
    | some t => calculate_dir_size_recursive (FS.size t) t

mutual
/-- `Walker::calculate_dir_sizes_recursive` (`walker.rs:519`): set each
directory entry's size, then recurse into its children, then move to the
next sibling; any failure aborts via `?`. -/
def calculate_dir_sizes_recursive (fsRoot : FS) (rootPath : List String) :
    List TreeEntry → Except String (List TreeEntry)
  | [] => .ok []
  | e :: rest =>
    match calcEntrySizes fsRoot rootPath e with
    | .error err => .error err
    | .ok e2 =>
      match calculate_dir_sizes_recursive fsRoot rootPath rest with
      | .error err => .error err
      | .ok rest' => .ok (e2 :: rest')
/-- The per-entry body of the loop of `calculate_dir_sizes_recursive`. -/
def calcEntrySizes (fsRoot : FS) (rootPath : List String) :
    TreeEntry → Except String TreeEntry
  | .mk n p s lc md isd sl ex ch dep =>
    match (if isd then calculate_dir_size fsRoot rootPath p else .ok s) with
    | .error err => .error err
    | .ok s' =>
      match calculate_dir_sizes_recursive fsRoot rootPath ch with
      | .error err => .error err
      | .ok ch' => .ok (.mk n p s' lc md isd sl ex ch' dep)
end

/-- `Walker::calculate_dir_sizes` (`walker.rs:497`): both the
`thread_count > 1` branch (a `try_for_each` over the top entries) and
the sequential branch perform the per-entry body of
`calculate_dir_sizes_recursive`; the parallel fan-out is modelled by its
sequential result, with the first failure aborting in either branch. -/
def Walker.calculate_dir_sizes (_w : Walker) (fsRoot : FS)
    (rootPath : List String) (entries : List TreeEntry) :
    Except String (List TreeEntry) :=
  calculate_dir_sizes_recursive fsRoot rootPath entries

/-- `Walker::walk_full` (`walker.rs:328`). -/
def Walker.walk_full (w : Walker) (now : Nat) (p : List String) (t : FS) :
    Except String (List TreeEntry) :=
  match w.walk_standard now p t with
  | .error e => .error e
  | .ok entries =>
    if w.dir_sizes then w.calculate_dir_sizes t p entries else .ok entries

/-- `Walker::walk` (`walker.rs:174`) on Unix. -/
def Walker.walk (w : Walker) (now : Nat) (p : List String) (t : FS) :
    Except String (List TreeEntry) :=
  match w.mode with
  | .FastPath => w.walk_fast_unix p t
  | .Standard => w.walk_standard now p t
  | .Full => w.walk_full now p t

/-- Decidable equality for `Except` results. -/
instance {ε α : Type _} [DecidableEq ε] [DecidableEq α] :
    DecidableEq (Except ε α) := fun a b =>
  match a, b with
  | .ok x, .ok y =>
    if h : x = y then .isTrue (by rw [h])
    else .isFalse (by intro hh; cases hh; exact h rfl)
  | .error x, .error y =>
    if h : x = y then .isTrue (by rw [h])
    else .isFalse (by intro hh; cases hh; exact h rfl)
  | .ok _, .error _ => .isFalse (by intro hh; cases hh)
  | .error _, .ok _ => .isFalse (by intro hh; cases hh)

/-- `Except` success as a Bool. -/
def exOk {ε α : Type _} : Except ε α → Bool
  | .ok _ => true
  | .error _ => false

/-- `Except` failure as a Bool. -/
def exErr {ε α : Type _} (x : Except ε α) : Bool := !exOk x

mutual
/-- All paths of one entry's subtree. -/
def pathsOfEntry : TreeEntry → List (List String)
  | .mk _ p _ _ _ _ _ _ ch _ => p :: pathsOfEntries ch
/-- All paths occurring in a forest of tree entries. -/
def pathsOfEntries : List TreeEntry → List (List String)
  | [] => []
  | e :: rest => pathsOfEntry e ++ pathsOfEntries rest
end

/-- Paths of a walk result (none for a failed walk). -/
def pathsOfRes (x : Except String (List TreeEntry)) : List (List String) :=
  match x with
  | .error _ => []
  | .ok l => pathsOfEntries l

mutual
/-- Spec-side definition for the strategy-equivalence claim, following
the spec's words: the paths a traversal restricted to the hidden-file
policy and the depth limit visits — the root, then for a directory
within the depth limit every child whose name passes the hidden-file
policy, recursively. -/
def specVisitPaths (f : FilterOptions) :
    List String → Nat → FS → List (List String)
  | p, _, .file _ => [p]
  | p, d, .dir _ _ cs =>
    p :: (if (match f.max_depth with | some dd => decide (d < dd) | none => true) then
            specVisitPathsL f p d cs
          else [])
def specVisitPathsL (f : FilterOptions) :
    List String → Nat → List (String × FS) → List (List String)
  | _, _, [] => []
  | p, d, (n, c) :: rest =>
    (if !f.show_hidden && startsDot n then []
     else specVisitPaths f (p ++ [n]) (d + 1) c) ++ specVisitPathsL f p d rest
end

mutual
/-- Every metadata read and every directory read in the tree succeeds. -/
def FS.healthy : FS → Bool
  | .file m => m.statOk && m.entryMetaOk
  | .dir m r cs => m.statOk && m.entryMetaOk && r && healthyChildren cs
def healthyChildren : List (String × FS) → Bool
  | [] => true
  | (_, c) :: rest => FS.healthy c && healthyChildren rest
end

mutual
/-- Every directory in the tree is readable and every
`DirEntry::metadata` read succeeds; `symlink_metadata` reads may still
fail. -/
def FS.readOk : FS → Bool
  | .file m => m.entryMetaOk
  | .dir m r cs => m.entryMetaOk && r && readOkChildren cs
def readOkChildren : List (String × FS) → Bool
  | [] => true
  | (_, c) :: rest => FS.readOk c && readOkChildren rest
end

mutual
/-- Depth-bound well-formedness of one entry: depth at most `D`, a
directory at depth `D` has no children, and the subtree is well formed. -/
def depthOkEntry (D : Nat) : TreeEntry → Bool
  | .mk _ _ _ _ _ isd _ _ ch dep =>
    decide (dep ≤ D) && (if isd && dep == D then ch.isEmpty else true) &&
      depthOkEntries D ch
/-- Depth-bound well-formedness of an entry forest. -/
def depthOkEntries (D : Nat) : List TreeEntry → Bool
  | [] => true
  | e :: rest => depthOkEntry D e && depthOkEntries D rest
end

mutual
/-- Per-directory file-cap well-formedness of one entry: at most `N`
file children, recursively. -/
def capOkEntry (N : Nat) : TreeEntry → Bool
  | .mk _ _ _ _ _ _ _ _ ch _ =>
    decide (ch.countP (fun e => !e.is_dir) ≤ N) && capOkEntries N ch
/-- Per-directory file-cap well-formedness of an entry forest. -/
def capOkEntries (N : Nat) : List TreeEntry → Bool
  | [] => true
  | e :: rest => capOkEntry N e && capOkEntries N rest
end

/-- The restriction of the strategy-equivalence claim: no sort key, no
search pattern, no size bounds, no age bounds, no include/exclude
patterns, no type restriction, no per-level caps and no ignore rules,
so that only the hidden-file policy and the depth limit apply. -/
def NoComplexFilters (f : FilterOptions) : Prop :=
  f.sort_by = none ∧ f.search = none ∧ f.min_size = none ∧
  f.max_size = none ∧ f.newer_than = none ∧ f.older_than = none ∧
  f.incl = none ∧ f.exclude = none ∧ f.only_dirs = false ∧
  f.only_files = false ∧ f.max_dirs = none ∧ f.max_files = none ∧
  f.gitignore = false

/-! Concrete fixtures used by witnesses and counterexamples. -/

/-- Healthy metadata of an empty file / a directory. -/
def mOK : Meta := ⟨true, true, some 0, false, false, []⟩

/-- Healthy metadata of a file with the given bytes. -/
def mTxt (content : List Nat) : Meta := ⟨true, true, some 0, false, false, content⟩

/-- Metadata whose `symlink_metadata` read fails. -/
def mBadStat : Meta := ⟨false, true, some 0, false, false, []⟩

/-- Default options with hidden files shown. -/
def optsAll : FilterOptions := { FilterOptions.default with show_hidden := true }

/-- Hidden files shown and ignore-rule mode on. -/
def optsGI : FilterOptions :=
  { FilterOptions.default with show_hidden := true, gitignore := true }

/-- A walker with wholly default options. -/
def wPlain : Walker := ⟨FilterOptions.default, none, 1, 1073741824, false, false, .FastPath⟩

/-- A walker showing hidden files, ignore-rule mode off. -/
def wAll : Walker := ⟨optsAll, none, 1, 1073741824, false, false, .Standard⟩

/-- A walker showing hidden files, ignore-rule mode on (flag set, matcher
degraded to none). -/
def wGI : Walker := ⟨optsGI, none, 1, 1073741824, false, false, .Full⟩

/-- A root whose only child is an unreadable directory. -/
def tUnreadableChild : FS := .dir mOK true [("a", .dir mOK false [])]

/-- A root with one stat-broken file child and one healthy file child. -/
def tBadStatChild : FS :=
  .dir mOK true [("a", .file mBadStat), ("b", .file (mTxt [65, 66]))]

/-- Two sibling directories: `a` unreadable, `b` readable holding a
five-byte file. -/
def tC3 : FS :=
  .dir mOK true
    [("a", .dir mOK false []),
     ("b", .dir mOK true [("f", .file (mTxt [65, 66, 67, 68, 69]))])]

/-- The tree entry of subtree `a` of `tC3` as a completed walk builds it. -/
def eC3a : TreeEntry := .mk "a" ["a"] 0 0 0 true false false [] 1

/-- The tree entry of subtree `b` of `tC3` as a completed walk builds it. -/
def eC3b : TreeEntry := .mk "b" ["b"] 0 0 0 true false false [] 1

/-- An empty directory (named by a hidden root path in the
strategy-equivalence counterexample). -/
def tEmptyDir : FS := .dir mOK true []

/-- A walker with directory-size aggregation enabled and max depth 1, so
the buffered walk itself stops above the unreadable directory while the
size aggregation still reads the whole subtree. -/
def wDS : Walker :=
  ⟨{ optsAll with max_depth := some 1 }, none, 1, 1073741824, false, true, .Full⟩

/-- The root entry `wDS.walk_standard 0 [] tC3` produces. -/
def eC3root : TreeEntry := .mk "" [] 0 0 0 true false false [eC3a, eC3b] 0

/-- A small healthy tree: a subdirectory with one file, a top-level file
and a hidden file. -/
def tSmall : FS :=
  .dir mOK true
    [("subdir", .dir mOK true [("file2.txt", .file (mTxt [65, 10, 66]))]),
     ("file1.txt", .file (mTxt [65, 66, 67])),
     (".hidden", .file (mTxt [65]))]

/-! Theorems. -/

/-- C4: mode selection is a pure function of the options: Full exactly
when a search pattern, a size bound, an age bound or ignore rules are
present; otherwise Standard exactly when an include/exclude pattern, a
type restriction, a sort key or a per-level cap is present; otherwise
Fast.  Enabling line counting yields a mode that is at least Standard
and never below the previous mode; enabling directory-size aggregation
always yields Full; neither upgrade ever lowers the rank. -/
theorem C4_mode_selection (f : FilterOptions)
    (g : Option (List String → Bool → Bool)) (w : Walker) :
    (Walker.determine_mode f g = .Full ↔
      (f.search.isSome || f.min_size.isSome || f.max_size.isSome ||
       f.newer_than.isSome || f.older_than.isSome || g.isSome) = true) ∧
    (Walker.determine_mode f g = .Standard ↔
      ((f.search.isSome || f.min_size.isSome || f.max_size.isSome ||
        f.newer_than.isSome || f.older_than.isSome || g.isSome) = false ∧
       (f.incl.isSome || f.exclude.isSome || f.only_dirs || f.only_files ||
        f.sort_by.isSome || f.max_dirs.isSome || f.max_files.isSome) = true)) ∧
    (Walker.determine_mode f g = .FastPath ↔
      ((f.search.isSome || f.min_size.isSome || f.max_size.isSome ||
        f.newer_than.isSome || f.older_than.isSome || g.isSome) = false ∧
       (f.incl.isSome || f.exclude.isSome || f.only_dirs || f.only_files ||
        f.sort_by.isSome || f.max_dirs.isSome || f.max_files.isSome) = false)) ∧
    WalkerMode.rank .Standard ≤ (w.enable_line_counting).mode.rank ∧
    w.mode.rank ≤ (w.enable_line_counting).mode.rank ∧
    (w.enable_dir_sizes).mode = .Full ∧
    w.mode.rank ≤ (w.enable_dir_sizes).mode.rank := by
  refine ⟨?_, ?_, ?_, ?_, ?_, rfl, ?_⟩
  · cases h1 : (f.search.isSome || f.min_size.isSome || f.max_size.isSome ||
        f.newer_than.isSome || f.older_than.isSome || g.isSome) <;>
      cases h2 : (f.incl.isSome || f.exclude.isSome || f.only_dirs || f.only_files ||
        f.sort_by.isSome || f.max_dirs.isSome || f.max_files.isSome) <;>
      simp [Walker.determine_mode, h1, h2]
  · cases h1 : (f.search.isSome || f.min_size.isSome || f.max_size.isSome ||
        f.newer_than.isSome || f.older_than.isSome || g.isSome) <;>
      cases h2 : (f.incl.isSome || f.exclude.isSome || f.only_dirs || f.only_files ||
        f.sort_by.isSome || f.max_dirs.isSome || f.max_files.isSome) <;>
      simp [Walker.determine_mode, h1, h2]
  · cases h1 : (f.search.isSome || f.min_size.isSome || f.max_size.isSome ||
        f.newer_than.isSome || f.older_than.isSome || g.isSome) <;>
      cases h2 : (f.incl.isSome || f.exclude.isSome || f.only_dirs || f.only_files ||
        f.sort_by.isSome || f.max_dirs.isSome || f.max_files.isSome) <;>
      simp [Walker.determine_mode, h1, h2]
  · cases hm : w.mode <;>
      simp [Walker.enable_line_counting, hm, WalkerMode.rank]
  · cases hm : w.mode <;>
      simp [Walker.enable_line_counting, hm, WalkerMode.rank]
  · cases hm : w.mode <;> simp [Walker.enable_dir_sizes, WalkerMode.rank, hm]

/-- C7: the search-pattern filter applies only to files: a file whose
full path does not match a set search pattern is excluded by
`should_include`, while for a directory the result of `should_include`
does not depend on the search pattern at all. -/
theorem C7_search_only_files (f : FilterOptions) (r : String → Bool)
    (p : List String) (m : Meta) (now : Nat) :
    (f.search = some r → r (pathStr p) = false →
      f.should_include p false m now = false) ∧
    (∀ s s' : Option (String → Bool),
      FilterOptions.should_include { f with search := s } p true m now =
      FilterOptions.should_include { f with search := s' } p true m now) := by
  constructor
  · intro hs hr
    simp [FilterOptions.should_include, FilterOptions.matches_search, hs, hr]
  · intro s s'
    simp [FilterOptions.should_include, FilterOptions.matches_search]

/-- C7 witness: a concrete file path failing the pattern is excluded, and
a concrete directory is judged the same with and without a pattern. -/
theorem C7_search_only_files_witness :
    FilterOptions.should_include
      { optsAll with search := some (fun s => decide (s = "main")) }
      ["r", "lib.rs"] false mOK 0 = false ∧
    FilterOptions.should_include
      { optsAll with search := some (fun s => decide (s = "main")) } ["r", "d"] true mOK 0 =
    FilterOptions.should_include { optsAll with search := none } ["r", "d"] true mOK 0 := by
  constructor
  · exact (C7_search_only_files
      { optsAll with search := some (fun s => decide (s = "main")) }
      (fun s => decide (s = "main")) ["r", "lib.rs"] mOK 0).1 rfl (by decide)
  · exact (C7_search_only_files optsAll (fun _ => true) ["r", "d"] mOK 0).2
      (some (fun s => decide (s = "main"))) none

/-- C8: age is `now` minus the modification time; with a newer-than
bound an entry older than the bound is excluded, with an older-than
bound an entry younger than the bound is excluded, and when the
timestamp cannot be read (or precedes `now`... i.e. `now` precedes it)
the age checks are skipped: the result is as if no age bound were set. -/
theorem C8_age_filter (f : FilterOptions) (p : List String) (is_dir : Bool)
    (m : Meta) (now t b : Nat) :
    (m.modified = some t → t ≤ now → f.newer_than = some b → b < now - t →
      f.should_include p is_dir m now = false) ∧
    (m.modified = some t → t ≤ now → f.older_than = some b → now - t < b →
      f.should_include p is_dir m now = false) ∧
    (m.modified = none →
      f.should_include p is_dir m now =
      FilterOptions.should_include
        { f with newer_than := none, older_than := none } p is_dir m now) ∧
    (m.modified = some t → now < t →
      f.should_include p is_dir m now =
      FilterOptions.should_include
        { f with newer_than := none, older_than := none } p is_dir m now) := by
  refine ⟨?_, ?_, ?_, ?_⟩
  · intro hm ht hb hlt
    simp [FilterOptions.should_include, hm, ht, hb, hlt]
  · intro hm ht hb hlt
    simp [FilterOptions.should_include, hm, ht, hb, hlt]
  · intro hm
    simp [FilterOptions.should_include, FilterOptions.matches_search, hm]
  · intro hm hnt
    have hne : ¬ t ≤ now := by omega
    simp [FilterOptions.should_include, FilterOptions.matches_search, hm, hne]

/-- C8 witness: with `now = 100`, a file modified at time 0 (age 100) is
excluded by a newer-than bound of 10 and by an older-than bound of 200,
and a missing or future timestamp leaves the decision unchanged. -/
theorem C8_age_filter_witness :
    FilterOptions.should_include { optsAll with newer_than := some 10 }
      ["r", "f"] false (mTxt [65]) 100 = false ∧
    FilterOptions.should_include { optsAll with older_than := some 200 }
      ["r", "f"] false (mTxt [65]) 100 = false ∧
    FilterOptions.should_include
      { optsAll with newer_than := some 10, older_than := some 200 } ["r", "f"] false
      ⟨true, true, none, false, false, [65]⟩ 100 =
    FilterOptions.should_include
      { optsAll with newer_than := none, older_than := none } ["r", "f"] false
      ⟨true, true, none, false, false, [65]⟩ 100 ∧
    FilterOptions.should_include
      { optsAll with newer_than := some 10, older_than := some 200 } ["r", "f"] false
      ⟨true, true, some 500, false, false, [65]⟩ 100 =
    FilterOptions.should_include
      { optsAll with newer_than := none, older_than := none } ["r", "f"] false
      ⟨true, true, some 500, false, false, [65]⟩ 100 := by
  refine ⟨?_, ?_, ?_, ?_⟩
  · exact (C8_age_filter { optsAll with newer_than := some 10 }
      ["r", "f"] false (mTxt [65]) 100 0 10).1 rfl (by omega) rfl (by omega)
  · exact (C8_age_filter { optsAll with older_than := some 200 }
      ["r", "f"] false (mTxt [65]) 100 0 200).2.1 rfl (by omega) rfl (by omega)
  · exact (C8_age_filter
      { optsAll with newer_than := some 10, older_than := some 200 } ["r", "f"] false
      ⟨true, true, none, false, false, [65]⟩ 100 0 0).2.2.1 rfl
  · exact (C8_age_filter
      { optsAll with newer_than := some 10, older_than := some 200 } ["r", "f"] false
      ⟨true, true, some 500, false, false, [65]⟩ 100 500 0).2.2.2 rfl (by omega)

/-- C9: `count_lines` returns the newline count plus one for a non-empty
file within the size limit, not classified as binary, whose last byte is
not a newline; it returns 0 for a file over the size limit and for a
binary file; and any null byte among the first 512 bytes classifies the
file as binary, forcing a count of 0. -/
theorem C9_count_lines (content : List Nat) (max_size : Nat) :
    (content.length ≤ max_size → is_binary_file content = false →
      content ≠ [] → content.getLastD 0 ≠ 10 →
      count_lines content max_size = content.countP (fun b => b == 10) + 1) ∧
    (max_size < content.length → count_lines content max_size = 0) ∧
    (is_binary_file content = true → count_lines content max_size = 0) ∧
    ((∃ b ∈ content.take 512, b = 0) →
      is_binary_file content = true ∧ count_lines content max_size = 0) := by
  have hbin0 : is_binary_file content = true → count_lines content max_size = 0 := by
    intro hb
    unfold count_lines
    by_cases hl : max_size < content.length
    · simp [hl]
    · simp [hl, hb]
  refine ⟨?_, ?_, hbin0, ?_⟩
  · intro hlen hbin hne hlast
    have hl : ¬ max_size < content.length := by omega
    have hemp : content.isEmpty = false := by
      cases content with
      | nil => exact absurd rfl hne
      | cons a l => rfl
    have hlast' : content.getLast?.getD 0 ≠ 10 := by
      simpa [List.getLastD_eq_getLast?] using hlast
    unfold count_lines
    simp [hl, hbin, hemp, hlast']
  · intro hl
    unfold count_lines
    simp [hl]
  · intro hex
    have hb : is_binary_file content = true := by
      obtain ⟨b, hmem, hb0⟩ := hex
      unfold is_binary_file
      have hne : content.take 512 ≠ [] := List.ne_nil_of_mem hmem
      have hlen : (content.take 512).length ≠ 0 := by
        simpa [List.length_eq_zero] using hne
      have hcnt : 0 < (content.take 512).countP (fun x => x == 0) := by
        refine List.countP_pos_iff.mpr ⟨b, hmem, ?_⟩
        simp [hb0]
      have hcne : content ≠ [] := by
        intro h
        rw [h] at hne
        simp at hne
      simp [hlen, hcnt, hcne]
    exact ⟨hb, hbin0 hb⟩

/-- C9 witness: two newline-terminated lines followed by an unterminated
line count as 3; a null byte forces binary classification and count 0;
a file over the size limit counts 0. -/
theorem C9_count_lines_witness :
    count_lines [97, 98, 10, 99, 100, 10, 101, 102] 1000 =
      List.countP (fun b => b == 10) [97, 98, 10, 99, 100, 10, 101, 102] + 1 ∧
    count_lines [97, 98, 10, 99, 100, 10, 101, 102] 1000 = 3 ∧
    is_binary_file [0, 65] = true ∧
    count_lines [0, 65] 1000 = 0 ∧
    count_lines [65, 66] 1 = 0 := by
  have h1 := (C9_count_lines [97, 98, 10, 99, 100, 10, 101, 102] 1000).1
    (by decide) (by decide) (by decide) (by decide)
  have h4 := (C9_count_lines [0, 65] 1000).2.2.2 ⟨0, by decide, rfl⟩
  have h5 := (C9_count_lines [65, 66] 1).2.1 (by decide)
  exact ⟨h1, by decide, h4.1, h4.2, h5⟩

/-- C10: in a buffered Standard/Full walk the root's children are always
computed (by `rootChildren`, independently of the root's own filter
check), and the walk returns the one-element root sequence exactly when
the root passes the filters or some child survived, and the empty
sequence otherwise. -/
theorem C10_root_semantics (w : Walker) (now : Nat) (p : List String)
    (t : FS) (l : List TreeEntry) (h : w.walk_standard now p t = .ok l) :
    ∃ kids, w.rootChildren now p t = .ok kids ∧
      l = (if w.should_include p t.isDir t.meta now || !kids.isEmpty then
             [(w.create_entry p t.isDir t.meta 0).withChildren kids]
           else []) := by
  unfold Walker.walk_standard at h
  cases hs : t.meta.statOk with
  | false => rw [hs] at h; simp at h
  | true =>
    rw [hs] at h
    simp only [Bool.not_true, Bool.false_eq_true, if_false] at h
    cases hk : w.rootChildren now p t with
    | error e => rw [hk] at h; simp at h
    | ok kids =>
      rw [hk] at h
      refine ⟨kids, rfl, ?_⟩
      simp only [] at h
      split at h
      next hc => rw [if_pos hc]; injection h with h2; exact h2.symm
      next hc => rw [if_neg hc]; injection h with h2; exact h2.symm

/-- C10 witness: on a concrete tree whose root fails the hidden-file
filter but has surviving children, the walk returns the root with those
children. -/
theorem C10_root_semantics_witness :
    ∃ kids, wAll.rootChildren 0 ["r"] tSmall = .ok kids ∧
      (match wAll.walk_standard 0 ["r"] tSmall with
       | .ok l =>
         l = (if wAll.should_include ["r"] tSmall.isDir tSmall.meta 0 || !kids.isEmpty then
                [(wAll.create_entry ["r"] tSmall.isDir tSmall.meta 0).withChildren kids]
              else [])
       | .error _ => False) := by
  obtain ⟨l, hl⟩ : ∃ l, wAll.walk_standard 0 ["r"] tSmall = .ok l := by
    exact ⟨_, rfl⟩
  obtain ⟨kids, hk, hval⟩ := C10_root_semantics wAll 0 ["r"] tSmall l hl
  exact ⟨kids, hk, by rw [hl]; exact hval⟩

/-- C3 (amended): a failure reading one subdirectory aborts the whole
size-aggregation pass — `calculate_dir_sizes_recursive` returns the
error without touching the remaining siblings, and `walk_full`
propagates it, so the caller gets no partially-aggregated tree. -/
theorem C3_size_aggregation_aborts :
    (∀ (fsRoot : FS) (rootPath : List String) (e : TreeEntry)
       (rest : List TreeEntry),
       e.is_dir = true →
       exErr (calculate_dir_size fsRoot rootPath e.path) = true →
       exErr (calculate_dir_sizes_recursive fsRoot rootPath (e :: rest)) = true) ∧
    (∀ (w : Walker) (now : Nat) (p : List String) (t : FS)
       (entries : List TreeEntry),
       w.dir_sizes = true →
       w.walk_standard now p t = .ok entries →
       exErr (w.calculate_dir_sizes t p entries) = true →
       exErr (w.walk_full now p t) = true) := by
  constructor
  · intro fsRoot rootPath e rest hdir herr
    cases e with
    | mk n p s lc md isd sl ex ch dep =>
      simp only [TreeEntry.is_dir] at hdir
      subst hdir
      simp only [TreeEntry.path] at herr
      cases hcd : calculate_dir_size fsRoot rootPath p with
      | ok v => rw [hcd] at herr; simp [exErr, exOk] at herr
      | error err =>
        have hce : calcEntrySizes fsRoot rootPath
            (.mk n p s lc md true sl ex ch dep) = .error err := by
          unfold calcEntrySizes
          rw [if_pos rfl, hcd]
        unfold calculate_dir_sizes_recursive
        rw [hce]
        rfl
  · intro w now p t entries hds hws herr
    unfold Walker.walk_full
    rw [hws]
    show exErr (if w.dir_sizes = true then w.calculate_dir_sizes t p entries
                else .ok entries) = true
    rw [if_pos hds]
    exact herr

/-- C3 witness: concrete inputs for both conjuncts — an aborting head
entry, and a full walk that propagates the aggregation failure. -/
theorem C3_size_aggregation_aborts_witness :
    exErr (calculate_dir_sizes_recursive tC3 [] [eC3a, eC3b]) = true ∧
    exErr (wDS.walk_full 0 [] tC3) = true := by
  constructor
  · exact C3_size_aggregation_aborts.1 tC3 [] eC3a [eC3b] rfl (by decide)
  · exact C3_size_aggregation_aborts.2 wDS 0 [] tC3 [eC3root] rfl rfl (by decide)

/-- C3 counterexample to the claim as stated: sibling `b` of the failing
subtree `a` is perfectly readable (its recursive size computes to 5),
yet the aggregation pass over `[a, b]` aborts with the error instead of
setting `b`'s size and surfacing a partial failure. -/
theorem C3_counterexample :
    calculate_dir_size tC3 [] ["b"] = .ok 5 ∧
    exErr (calculate_dir_sizes_recursive tC3 [] [eC3a, eC3b]) = true ∧
    exErr (wDS.walk_full 0 [] tC3) = true := by
  refine ⟨by decide, by decide, by decide⟩


/-! Helper lemmas about the directory lister and the child loop. -/

@[simp] theorem exOk_ok {ε α : Type _} (a : α) : exOk (Except.ok (ε := ε) a) = true := rfl

@[simp] theorem exOk_error {ε α : Type _} (e : ε) : exOk (Except.error (α := α) e) = false := rfl

@[simp] theorem exErr_ok {ε α : Type _} (a : α) : exErr (Except.ok (ε := ε) a) = false := rfl

@[simp] theorem exErr_error {ε α : Type _} (e : ε) : exErr (Except.error (α := α) e) = true := rfl

/-- When the collection loop succeeds, every listed child's metadata
read succeeded. -/
theorem collectChildren_ok_metaOk (w : Walker) (now : Nat) (p : List String) :
    ∀ (cs : List (String × FS)) (pr : List (String × FS) × List (String × FS)),
      w.collectChildren now p cs = .ok pr →
      ∀ x ∈ cs, x.2.meta.entryMetaOk = true := by
  intro cs
  induction cs with
  | nil => intro pr _ x hx; simp at hx
  | cons y rest ih =>
    intro pr hc x hx
    obtain ⟨n, c⟩ := y
    cases hm : c.meta.entryMetaOk with
    | false => simp [Walker.collectChildren, hm] at hc
    | true =>
      rcases List.mem_cons.mp hx with rfl | hx'
      · exact hm
      · simp only [Walker.collectChildren, hm, Bool.not_true,
          Bool.false_eq_true, if_false] at hc
        cases hr : Walker.collectChildren w now p rest with
        | error e => rw [hr] at hc; simp at hc
        | ok pr' => exact ih pr' hr x hx'

/-- When every listed child's metadata read succeeds, the collection
loop returns exactly the filtered directories and the filtered files,
each in enumeration order. -/
theorem collectChildren_eq (w : Walker) (now : Nat) (p : List String) :
    ∀ cs : List (String × FS),
      (∀ x ∈ cs, x.2.meta.entryMetaOk = true) →
      w.collectChildren now p cs =
        .ok (cs.filter (fun x => x.2.isDir &&
               w.should_include (p ++ [x.1]) x.2.isDir x.2.meta now),
             cs.filter (fun x => !x.2.isDir &&
               w.should_include (p ++ [x.1]) x.2.isDir x.2.meta now)) := by
  intro cs
  induction cs with
  | nil => intro _; rfl
  | cons y rest ih =>
    intro hall
    obtain ⟨n, c⟩ := y
    have hm : c.meta.entryMetaOk = true := hall (n, c) (List.mem_cons_self _ _)
    have hrest := ih (fun x hx => hall x (List.mem_cons_of_mem _ hx))
    cases hinc : w.should_include (p ++ [n]) c.isDir c.meta now with
    | false =>
      simp [Walker.collectChildren, hm, hrest, hinc, List.filter_cons]
    | true =>
      cases hdir : c.isDir with
      | true =>
        rw [hdir] at hinc
        simp [Walker.collectChildren, hm, hrest, hinc, hdir, List.filter_cons]
      | false =>
        rw [hdir] at hinc
        simp [Walker.collectChildren, hm, hrest, hinc, hdir, List.filter_cons]

/-- A child returned by the collection loop was listed and passed the
filter. -/
theorem collectChildren_mem (w : Walker) (now : Nat) (p : List String)
    (cs ds fls : List (String × FS)) (x : String × FS)
    (hc : w.collectChildren now p cs = .ok (ds, fls))
    (hx : x ∈ ds ∨ x ∈ fls) :
    x ∈ cs ∧ w.should_include (p ++ [x.1]) x.2.isDir x.2.meta now = true := by
  have hmeta := collectChildren_ok_metaOk w now p cs (ds, fls) hc
  rw [collectChildren_eq w now p cs hmeta] at hc
  simp only [Except.ok.injEq, Prod.mk.injEq] at hc
  obtain ⟨h1, h2⟩ := hc
  rcases hx with hx | hx
  · rw [← h1] at hx
    have := List.mem_filter.mp hx
    refine ⟨this.1, ?_⟩
    have h3 := this.2
    simp only [Bool.and_eq_true] at h3
    exact h3.2
  · rw [← h2] at hx
    have := List.mem_filter.mp hx
    refine ⟨this.1, ?_⟩
    have h3 := this.2
    simp only [Bool.and_eq_true] at h3
    exact h3.2

theorem orderEntries_mem (w : Walker) (p : List String) (depth : Nat)
    (ds fls : List (String × FS)) (x : String × FS)
    (hx : x ∈ w.orderEntries p depth ds fls) : x ∈ ds ++ fls := by
  unfold Walker.orderEntries at hx
  cases hs : w.filter_opts.sort_by with
  | none => rw [hs] at hx; exact hx
  | some k =>
    rw [hs] at hx
    simp only [List.mem_map] at hx
    obtain ⟨y, hy, hxy⟩ := hx
    rw [List.mem_mergeSort] at hy
    simp only [List.mem_map] at hy
    obtain ⟨z, hz, hzy⟩ := hy
    subst hzy
    subst hxy
    exact hz

theorem limitEntries_mem (f : FilterOptions) :
    ∀ (l : List (String × FS)) (a b : Nat) (x : String × FS),
      x ∈ limitEntries f l a b → x ∈ l := by
  intro l
  induction l with
  | nil => intro a b x hx; simp [limitEntries] at hx
  | cons y rest ih =>
    intro a b x hx
    unfold limitEntries at hx
    obtain ⟨n, c⟩ := y
    cases hdir : c.isDir with
    | true =>
      rw [show ((n, c).2.isDir) = true from hdir] at hx
      simp only [if_true] at hx
      split at hx
      · exact List.mem_cons_of_mem _ (ih _ _ x hx)
      · rcases List.mem_cons.mp hx with rfl | hx'
        · exact List.mem_cons_self _ _
        · exact List.mem_cons_of_mem _ (ih _ _ x hx')
    | false =>
      rw [show ((n, c).2.isDir) = false from hdir] at hx
      simp only [Bool.false_eq_true, if_false] at hx
      split at hx
      · exact List.mem_cons_of_mem _ (ih _ _ x hx)
      · rcases List.mem_cons.mp hx with rfl | hx'
        · exact List.mem_cons_self _ _
        · exact List.mem_cons_of_mem _ (ih _ _ x hx')

/-- A child returned by `read_directory` was listed in the directory and
passed the filter. -/
theorem read_directory_mem (w : Walker) (now : Nat) (p : List String)
    (t : FS) (depth : Nat) (out : List (String × FS)) (x : String × FS)
    (hro : w.read_directory now p t depth = .ok out) (hx : x ∈ out) :
    x ∈ t.childList ∧
      w.should_include (p ++ [x.1]) x.2.isDir x.2.meta now = true := by
  cases t with
  | file m => simp [Walker.read_directory] at hro
  | dir m r cs =>
    cases r with
    | false => simp [Walker.read_directory] at hro
    | true =>
      simp only [Walker.read_directory] at hro
      cases hc : w.collectChildren now p cs with
      | error e => rw [hc] at hro; simp at hro
      | ok pair =>
        obtain ⟨ds, fls⟩ := pair
        rw [hc] at hro
        simp only [Except.ok.injEq] at hro
        subst hro
        have h1 := limitEntries_mem w.filter_opts _ 0 0 x hx
        have h2 := orderEntries_mem w p depth ds fls x h1
        exact collectChildren_mem w now p cs ds fls x hc (List.mem_append.mp h2)

theorem create_entry_is_dir (w : Walker) (p : List String) (is_dir : Bool)
    (m : Meta) (depth : Nat) :
    (w.create_entry p is_dir m depth).is_dir = is_dir := rfl

/-- Error propagation of one loop step: if processing the remaining
siblings fails, prepending one more child cannot succeed. -/
theorem pdcStep_err_cons (gitig : Bool)
    (procEnt : String × FS → Except String (Option TreeEntry))
    (descend : String × FS → Except String (List TreeEntry))
    (y : String × FS) (rest : List (String × FS))
    (h : exErr (pdcStep gitig procEnt descend rest) = true) :
    exErr (pdcStep gitig procEnt descend (y :: rest)) = true := by
  unfold pdcStep
  cases hy : procEnt y with
  | error e =>
    cases gitig with
    | false => simp
    | true => simpa using h
  | ok oe =>
    cases oe with
    | none => simpa using h
    | some en =>
      cases hd : en.is_dir with
      | false =>
        cases hstep : pdcStep gitig procEnt descend rest with
        | error e => simp [hd, hstep]
        | ok others => rw [hstep] at h; simp at h
      | true =>
        cases hdes : descend y with
        | error e => simp [hd, hdes]
        | ok kids =>
          cases hstep : pdcStep gitig procEnt descend rest with
          | error e => simp [hd, hdes, hstep]
          | ok others => rw [hstep] at h; simp at h

/-- With ignore-rule mode off, a child whose `process_entry` fails makes
the whole loop fail. -/
theorem pdcStep_err_of_proc_err
    (procEnt : String × FS → Except String (Option TreeEntry))
    (descend : String × FS → Except String (List TreeEntry)) :
    ∀ (out : List (String × FS)) (x : String × FS),
      x ∈ out → (∃ e, procEnt x = .error e) →
      exErr (pdcStep false procEnt descend out) = true := by
  intro out
  induction out with
  | nil => intro x hx _; simp at hx
  | cons y rest ih =>
    intro x hx he
    rcases List.mem_cons.mp hx with rfl | hx'
    · obtain ⟨e, he⟩ := he
      simp [pdcStep, he]
    · exact pdcStep_err_cons false procEnt descend y rest (ih x hx' he)

/-- A directory child whose descent fails makes the whole loop fail in
either ignore-rule mode. -/
theorem pdcStep_err_of_descend_err (gitig : Bool)
    (procEnt : String × FS → Except String (Option TreeEntry))
    (descend : String × FS → Except String (List TreeEntry)) :
    ∀ (out : List (String × FS)) (x : String × FS) (en : TreeEntry),
      x ∈ out → procEnt x = .ok (some en) → en.is_dir = true →
      exErr (descend x) = true →
      exErr (pdcStep gitig procEnt descend out) = true := by
  intro out
  induction out with
  | nil => intro x en hx _ _ _; simp at hx
  | cons y rest ih =>
    intro x en hx hpe hdir hdes
    rcases List.mem_cons.mp hx with rfl | hx'
    · cases hd : descend x with
      | error e => simp [pdcStep, hpe, hdir, hd]
      | ok kids => rw [hd] at hdes; simp at hdes
    · exact pdcStep_err_cons gitig procEnt descend y rest
        (ih x en hx' hpe hdir hdes)

/-- With ignore-rule mode on, the loop succeeds as long as every
directory child it actually descends into succeeds: `process_entry`
failures are merely skipped. -/
theorem pdcStep_ok_gitignore
    (procEnt : String × FS → Except String (Option TreeEntry))
    (descend : String × FS → Except String (List TreeEntry)) :
    ∀ (out : List (String × FS)),
      (∀ x ∈ out, ∀ en, procEnt x = .ok (some en) → en.is_dir = true →
        exOk (descend x) = true) →
      exOk (pdcStep true procEnt descend out) = true := by
  intro out
  induction out with
  | nil => intro _; rfl
  | cons y rest ih =>
    intro hall
    have hrest : exOk (pdcStep true procEnt descend rest) = true :=
      ih (fun x hx en h1 h2 => hall x (List.mem_cons_of_mem y hx) en h1 h2)
    cases hstep : pdcStep true procEnt descend rest with
    | error e => rw [hstep] at hrest; simp at hrest
    | ok others =>
      unfold pdcStep
      cases hy : procEnt y with
      | error e => simp [hstep]
      | ok oe =>
        cases oe with
        | none => simp [hstep]
        | some en =>
          cases hd : en.is_dir with
          | false => simp [hd, hstep]
          | true =>
            have hok := hall y (List.mem_cons_self y rest) en hy hd
            cases hdes : descend y with
            | error e => rw [hdes] at hok; simp at hok
            | ok kids => simp [hd, hdes, hstep]

/-! Lemmas about sizes, read health and the recursive child processor. -/

theorem FS.size_pos : ∀ t : FS, 1 ≤ FS.size t := by
  intro t
  cases t with
  | file m => simp [FS.size]
  | dir m r cs => simp [FS.size]

theorem FS.sizeL_mem :
    ∀ (cs : List (String × FS)) (x : String × FS),
      x ∈ cs → FS.size x.2 ≤ FS.sizeL cs := by
  intro cs
  induction cs with
  | nil => intro x hx; simp at hx
  | cons y rest ih =>
    intro x hx
    obtain ⟨n, c⟩ := y
    rcases List.mem_cons.mp hx with rfl | hx'
    · simp only [FS.sizeL]
      omega
    · have := ih x hx'
      simp only [FS.sizeL]
      omega

theorem FS.readOk_meta : ∀ c : FS, FS.readOk c = true → c.meta.entryMetaOk = true := by
  intro c h
  cases c with
  | file m => simpa [FS.readOk, FS.meta] using h
  | dir m r cs =>
    simp only [FS.readOk, Bool.and_eq_true] at h
    exact h.1.1

theorem readOkChildren_mem :
    ∀ (cs : List (String × FS)), readOkChildren cs = true →
      ∀ x ∈ cs, FS.readOk x.2 = true := by
  intro cs
  induction cs with
  | nil => intro _ x hx; simp at hx
  | cons y rest ih =>
    intro h x hx
    obtain ⟨n, c⟩ := y
    simp only [readOkChildren, Bool.and_eq_true] at h
    rcases List.mem_cons.mp hx with rfl | hx'
    · exact h.1
    · exact ih h.2 x hx'

theorem process_entry_err_of_stat (w : Walker) (now : Nat) (p : List String)
    (t : FS) (d : Nat) (h : t.meta.statOk = false) :
    w.process_entry now p t d = .error "symlink_metadata failed" := by
  simp [Walker.process_entry, h]

theorem process_entry_ok_some (w : Walker) (now : Nat) (p : List String)
    (t : FS) (d : Nat) (hstat : t.meta.statOk = true)
    (hinc : w.should_include p t.isDir t.meta now = true) :
    w.process_entry now p t d = .ok (some (w.create_entry p t.isDir t.meta d)) := by
  simp [Walker.process_entry, hstat, hinc]

theorem process_entry_some_is_dir (w : Walker) (now : Nat) (p : List String)
    (t : FS) (d : Nat) (en : TreeEntry)
    (h : w.process_entry now p t d = .ok (some en)) : en.is_dir = t.isDir := by
  unfold Walker.process_entry at h
  split at h
  · simp at h
  · split at h
    · simp at h
    · simp only [Except.ok.injEq, Option.some.injEq] at h
      subst h
      exact create_entry_is_dir w p t.isDir t.meta d

/-- Unfolding step of `process_directory_children` below the depth stop:
it is the loop over the listed children. -/
theorem pdc_step_eq (w : Walker) (now fuel : Nat) (p : List String)
    (pdepth : Nat) (t : FS) (out : List (String × FS))
    (hstop : (match w.filter_opts.max_depth with
              | some d => decide (d ≤ pdepth) | none => false) = false)
    (hro : w.read_directory now p t (pdepth + 1) = .ok out) :
    w.process_directory_children now (fuel + 1) p pdepth t =
      pdcStep w.filter_opts.gitignore
        (fun x => w.process_entry now (p ++ [x.1]) x.2 (pdepth + 1))
        (fun x =>
          w.process_directory_children now fuel (p ++ [x.1]) (pdepth + 1) x.2)
        out := by
  simp [Walker.process_directory_children, hstop, hro]

/-- Descending into an unreadable directory always fails when no depth
limit can cut the descent short. -/
theorem pdc_err_unreadable (w : Walker) (now : Nat)
    (hmd : w.filter_opts.max_depth = none) :
    ∀ (fuel : Nat) (p : List String) (d : Nat) (m : Meta)
      (cs : List (String × FS)),
      exErr (w.process_directory_children now fuel p d (.dir m false cs)) = true := by
  intro fuel p d m cs
  cases fuel with
  | zero => rfl
  | succ fuel =>
    have hstop : (match w.filter_opts.max_depth with
                  | some dd => decide (dd ≤ d) | none => false) = false := by
      rw [hmd]
    simp [Walker.process_directory_children, hstop, Walker.read_directory]

/-- With ignore-rule mode on, the child processor completes on any tree
whose directories are all readable and whose listing metadata reads all
succeed, whatever the `symlink_metadata` failures. -/
theorem pdc_ok_of_readOk (w : Walker) (now : Nat)
    (hgi : w.filter_opts.gitignore = true) :
    ∀ (fuel : Nat) (t : FS) (p : List String) (pdepth : Nat),
      FS.readOk t = true → t.isDir = true → FS.size t ≤ fuel →
      exOk (w.process_directory_children now fuel p pdepth t) = true := by
  intro fuel
  induction fuel with
  | zero =>
    intro t p pdepth _ _ hsz
    have := FS.size_pos t
    omega
  | succ fuel ih =>
    intro t p pdepth hro hdir hsz
    cases t with
    | file m => simp [FS.isDir] at hdir
    | dir m r cs =>
      simp only [FS.readOk, Bool.and_eq_true] at hro
      obtain ⟨⟨hm, hr⟩, hcs⟩ := hro
      subst hr
      cases hstop : (match w.filter_opts.max_depth with
                     | some d => decide (d ≤ pdepth) | none => false) with
      | true => simp [Walker.process_directory_children, hstop]
      | false =>
        have hmeta : ∀ x ∈ cs, x.2.meta.entryMetaOk = true := by
          intro x hx
          exact FS.readOk_meta _ (readOkChildren_mem cs hcs x hx)
        obtain ⟨out, hread⟩ :
            ∃ out, w.read_directory now p (.dir m true cs) (pdepth + 1) = .ok out :=
          ⟨limitEntries w.filter_opts (w.orderEntries p (pdepth + 1)
              (cs.filter (fun x => x.2.isDir &&
                w.should_include (p ++ [x.1]) x.2.isDir x.2.meta now))
              (cs.filter (fun x => !x.2.isDir &&
                w.should_include (p ++ [x.1]) x.2.isDir x.2.meta now))) 0 0,
           by simp [Walker.read_directory, collectChildren_eq w now p cs hmeta]⟩
        rw [pdc_step_eq w now fuel p pdepth (.dir m true cs) out hstop hread, hgi]
        apply pdcStep_ok_gitignore
        intro x hx en hpe hend
        have hxmem := read_directory_mem w now p (.dir m true cs) (pdepth + 1)
          out x hread hx
        have hxcs : x ∈ cs := hxmem.1
        have hxdir : x.2.isDir = true := by
          rw [← process_entry_some_is_dir w now (p ++ [x.1]) x.2 (pdepth + 1) en hpe]
          exact hend
        have hxro : FS.readOk x.2 = true := readOkChildren_mem cs hcs x hxcs
        have hxsz : FS.size x.2 ≤ fuel := by
          have h1 := FS.sizeL_mem cs x hxcs
          have h2 : FS.size (FS.dir m true cs) = FS.sizeL cs + 1 := rfl
          omega
        exact ih x.2 (p ++ [x.1]) (pdepth + 1) hxro hxdir hxsz

/-- C2 (amended): during a buffered walk, a child whose
`symlink_metadata` read fails aborts the whole walk when ignore-rule
mode is off, but is only logged and skipped when ignore-rule mode is on
— the walk then completes on any tree whose directory reads succeed;
however a directory-read failure while descending into a child aborts
the walk regardless of ignore-rule mode. -/
theorem C2_error_policy :
    (∀ (w : Walker) (now fuel : Nat) (p : List String) (pdepth : Nat)
       (t : FS) (out : List (String × FS)) (x : String × FS),
       w.filter_opts.gitignore = false →
       w.read_directory now p t (pdepth + 1) = .ok out →
       x ∈ out → x.2.meta.statOk = false →
       (match w.filter_opts.max_depth with
        | some d => pdepth < d | none => True) →
       exErr (w.process_directory_children now (fuel + 1) p pdepth t) = true) ∧
    (∀ (w : Walker) (now fuel : Nat) (p : List String) (pdepth : Nat) (t : FS),
       w.filter_opts.gitignore = true →
       FS.readOk t = true → t.isDir = true → FS.size t ≤ fuel →
       exOk (w.process_directory_children now fuel p pdepth t) = true) ∧
    (∀ (w : Walker) (now fuel : Nat) (p : List String) (pdepth : Nat)
       (t : FS) (out : List (String × FS)) (n : String) (m' : Meta)
       (cs' : List (String × FS)),
       w.filter_opts.max_depth = none →
       w.read_directory now p t (pdepth + 1) = .ok out →
       (n, FS.dir m' false cs') ∈ out → m'.statOk = true →
       exErr (w.process_directory_children now (fuel + 1) p pdepth t) = true) := by
  refine ⟨?_, ?_, ?_⟩
  · intro w now fuel p pdepth t out x hgi hro hx hstat hdepth
    have hstop : (match w.filter_opts.max_depth with
                  | some dd => decide (dd ≤ pdepth) | none => false) = false := by
      cases hmd : w.filter_opts.max_depth with
      | none => rfl
      | some dd =>
        rw [hmd] at hdepth
        simp only [decide_eq_false_iff_not]
        omega
    rw [pdc_step_eq w now fuel p pdepth t out hstop hro, hgi]
    exact pdcStep_err_of_proc_err _ _ out x hx
      ⟨_, process_entry_err_of_stat w now (p ++ [x.1]) x.2 (pdepth + 1) hstat⟩
  · intro w now fuel p pdepth t hgi hro hdir hsz
    exact pdc_ok_of_readOk w now hgi fuel t p pdepth hro hdir hsz
  · intro w now fuel p pdepth t out n m' cs' hmd hro hx hstat
    have hstop : (match w.filter_opts.max_depth with
                  | some dd => decide (dd ≤ pdepth) | none => false) = false := by
      rw [hmd]
    rw [pdc_step_eq w now fuel p pdepth t out hstop hro]
    have hinc := (read_directory_mem w now p t (pdepth + 1) out
      (n, FS.dir m' false cs') hro hx).2
    refine pdcStep_err_of_descend_err _ _ _ out (n, FS.dir m' false cs')
      (w.create_entry (p ++ [n]) true m' (pdepth + 1)) hx ?_ ?_ ?_
    · exact process_entry_ok_some w now (p ++ [n]) (FS.dir m' false cs')
        (pdepth + 1) hstat hinc
    · exact create_entry_is_dir w (p ++ [n]) true m' (pdepth + 1)
    · exact pdc_err_unreadable w now hmd fuel (p ++ [n]) (pdepth + 1) m' cs'

/-- C2 witness: the three conjuncts at concrete inputs — ignore-rule
mode off aborts on a stat-broken child; ignore-rule mode on completes on
the same tree; an unreadable child directory aborts even with
ignore-rule mode on. -/
theorem C2_error_policy_witness :
    exErr (wAll.process_directory_children 0 1 ["r"] 0 tBadStatChild) = true ∧
    exOk (wGI.process_directory_children 0 (FS.size tBadStatChild) ["r"] 0
      tBadStatChild) = true ∧
    exErr (wGI.process_directory_children 0 1 ["r"] 0 tUnreadableChild) = true := by
  refine ⟨?_, ?_, ?_⟩
  · exact C2_error_policy.1 wAll 0 0 ["r"] 0 tBadStatChild
      [("a", FS.file mBadStat), ("b", FS.file (mTxt [65, 66]))]
      ("a", FS.file mBadStat) rfl rfl (List.mem_cons_self _ _) rfl trivial
  · exact C2_error_policy.2.1 wGI 0 (FS.size tBadStatChild) ["r"] 0
      tBadStatChild rfl rfl rfl (Nat.le_refl _)
  · exact C2_error_policy.2.2 wGI 0 0 ["r"] 0 tUnreadableChild
      [("a", FS.dir mOK false [])] "a" mOK [] rfl rfl
      (List.mem_cons_self _ _) rfl

/-- C2 counterexample to the claim as stated: with ignore-rule mode on,
a child directory whose read fails is claimed to be downgraded to a
warning with the walk continuing, but the walk aborts with the error. -/
theorem C2_counterexample :
    exErr (wGI.walk_standard 0 ["r"] tUnreadableChild) = true := by decide

/-! Depth-bound invariants. -/

theorem depthOkEntries_forall (D : Nat) :
    ∀ l : List TreeEntry,
      depthOkEntries D l = true ↔ ∀ e ∈ l, depthOkEntry D e = true := by
  intro l
  induction l with
  | nil => simp [depthOkEntries]
  | cons e rest ih =>
    simp [depthOkEntries, Bool.and_eq_true, ih, List.forall_mem_cons]

theorem process_entry_some_eq (w : Walker) (now : Nat) (p : List String)
    (t : FS) (d : Nat) (en : TreeEntry)
    (h : w.process_entry now p t d = .ok (some en)) :
    en = w.create_entry p t.isDir t.meta d := by
  unfold Walker.process_entry at h
  split at h
  · simp at h
  · split at h
    · simp at h
    · simp only [Except.ok.injEq, Option.some.injEq] at h
      exact h.symm

/-- Generic membership invariant of the child loop: every entry it emits
is either a processed directory child carrying its descent result or a
processed non-directory child. -/
theorem pdcStep_mem_spec (gitig : Bool)
    (procEnt : String × FS → Except String (Option TreeEntry))
    (descend : String × FS → Except String (List TreeEntry))
    (Q : TreeEntry → Prop)
    (hdir : ∀ x en kids, procEnt x = .ok (some en) → en.is_dir = true →
      descend x = .ok kids → Q (en.withChildren kids))
    (hfile : ∀ x en, procEnt x = .ok (some en) → en.is_dir = false → Q en) :
    ∀ (out : List (String × FS)) (l : List TreeEntry),
      pdcStep gitig procEnt descend out = .ok l → ∀ e ∈ l, Q e := by
  intro out
  induction out with
  | nil =>
    intro l h e he
    simp only [pdcStep, Except.ok.injEq] at h
    subst h
    simp at he
  | cons y rest ih =>
    intro l h e he
    unfold pdcStep at h
    cases hy : procEnt y with
    | error err =>
      rw [hy] at h
      cases gitig with
      | true => exact ih l (by simpa using h) e he
      | false => simp at h
    | ok oe =>
      rw [hy] at h
      cases oe with
      | none => exact ih l (by simpa using h) e he
      | some en =>
        replace h :
            (if en.is_dir = true then
              match descend y with
              | .error err => .error err
              | .ok kids =>
                match pdcStep gitig procEnt descend rest with
                | .error err => .error err
                | .ok others => .ok (en.withChildren kids :: others)
            else
              match pdcStep gitig procEnt descend rest with
              | .error err => .error err
              | .ok others => .ok (en :: others)) = Except.ok l := h
        cases hd : en.is_dir with
        | true =>
          rw [hd] at h
          simp only [if_true] at h
          cases hdes : descend y with
          | error err => rw [hdes] at h; simp at h
          | ok kids =>
            rw [hdes] at h
            cases hstep : pdcStep gitig procEnt descend rest with
            | error err => rw [hstep] at h; simp at h
            | ok others =>
              rw [hstep] at h
              simp only [Except.ok.injEq] at h
              subst h
              rcases List.mem_cons.mp he with rfl | he'
              · exact hdir y en kids hy hd hdes
              · exact ih others hstep e he'
        | false =>
          rw [hd] at h
          simp only [Bool.false_eq_true, if_false] at h
          cases hstep : pdcStep gitig procEnt descend rest with
          | error err => rw [hstep] at h; simp at h
          | ok others =>
            rw [hstep] at h
            simp only [Except.ok.injEq] at h
            subst h
            rcases List.mem_cons.mp he with rfl | he'
            · exact hfile y _ hy hd
            · exact ih others hstep e he'

/-- Above the depth stop the child processor returns no children. -/
theorem pdc_stop (w : Walker) (now : Nat) (p : List String) (d : Nat)
    (t : FS)
    (hstop : (match w.filter_opts.max_depth with
              | some dd => decide (dd ≤ d) | none => false) = true) :
    ∀ (fuel : Nat) (l : List TreeEntry),
      w.process_directory_children now fuel p d t = .ok l → l = [] := by
  intro fuel l h
  cases fuel with
  | zero => simp [Walker.process_directory_children] at h
  | succ fuel =>
    simp only [Walker.process_directory_children, hstop, if_true,
      Except.ok.injEq] at h
    exact h.symm

theorem pdc_depth_invariant (w : Walker) (now D : Nat)
    (hD : w.filter_opts.max_depth = some D) :
    ∀ (fuel : Nat) (t : FS) (p : List String) (d : Nat) (l : List TreeEntry),
      w.process_directory_children now fuel p d t = .ok l →
      depthOkEntries D l = true ∧ ∀ e ∈ l, e.depth = d + 1 := by
  intro fuel
  induction fuel with
  | zero => intro t p d l h; simp [Walker.process_directory_children] at h
  | succ fuel ih =>
    intro t p d l h
    by_cases hd : D ≤ d
    · have hstop : (match w.filter_opts.max_depth with
                    | some dd => decide (dd ≤ d) | none => false) = true := by
        rw [hD]; simpa using hd
      have hl := pdc_stop w now p d t hstop (fuel + 1) l h
      subst hl
      exact ⟨rfl, by simp⟩
    · have hdlt : d < D := by omega
      have hstop : (match w.filter_opts.max_depth with
                    | some dd => decide (dd ≤ d) | none => false) = false := by
        rw [hD]
        simp only [decide_eq_false_iff_not]
        omega
      cases hro : w.read_directory now p t (d + 1) with
      | error err =>
        simp [Walker.process_directory_children, hstop, hro] at h
      | ok out =>
        rw [pdc_step_eq w now fuel p d t out hstop hro] at h
        have hQ := pdcStep_mem_spec w.filter_opts.gitignore
          (fun x => w.process_entry now (p ++ [x.1]) x.2 (d + 1))
          (fun x =>
            w.process_directory_children now fuel (p ++ [x.1]) (d + 1) x.2)
          (fun e => depthOkEntry D e = true ∧ e.depth = d + 1)
          ?_ ?_ out l h
        · refine ⟨(depthOkEntries_forall D l).mpr (fun e he => (hQ e he).1),
            fun e he => (hQ e he).2⟩
        · intro x en kids hpe hend hdes
          have hen := process_entry_some_eq w now (p ++ [x.1]) x.2 (d + 1) en hpe
          obtain ⟨hkok, hkdep⟩ := ih x.2 (p ++ [x.1]) (d + 1) kids hdes
          subst hen
          constructor
          · by_cases hD1 : d + 1 = D
            · have hstop2 : (match w.filter_opts.max_depth with
                            | some dd => decide (dd ≤ d + 1) | none => false) = true := by
                rw [hD]; simp; omega
              have hke := pdc_stop w now (p ++ [x.1]) (d + 1) x.2 hstop2 fuel kids hdes
              subst hke
              simp [Walker.create_entry, TreeEntry.withChildren, depthOkEntry,
                depthOkEntries, hD1]
            · simp only [Walker.create_entry, TreeEntry.withChildren,
                depthOkEntry, Bool.and_eq_true, decide_eq_true_eq]
              refine ⟨⟨by omega, ?_⟩, hkok⟩
              have : (d + 1 == D) = false := by
                simp only [beq_eq_false_iff_ne, ne_eq]
                omega
              simp [this]
          · rfl
        · intro x en hpe hend
          have hen := process_entry_some_eq w now (p ++ [x.1]) x.2 (d + 1) en hpe
          subst hen
          constructor
          · simp only [Walker.create_entry, depthOkEntry, hend,
              Bool.and_eq_true, decide_eq_true_eq]
            refine ⟨⟨by omega, ?_⟩, rfl⟩
            rw [show (w.create_entry (p ++ [x.1]) x.2.isDir x.2.meta (d + 1)).is_dir
                  = x.2.isDir from rfl] at hend
            simp [Walker.create_entry, hend]
          · rfl

/-- Per-element invariant of the fast child loop: each emitted entry is
the head of a successful recursive walk of one child. -/
theorem fastStep_mem (show_hidden : Bool)
    (descend : String × FS → Except String (List TreeEntry))
    (Q : TreeEntry → Prop)
    (hQ : ∀ x e tail, descend x = .ok (e :: tail) → Q e) :
    ∀ (cs : List (String × FS)) (e : TreeEntry),
      e ∈ fastStep show_hidden descend cs → Q e := by
  intro cs
  induction cs with
  | nil => intro e he; simp [fastStep] at he
  | cons y rest ih =>
    intro e he
    obtain ⟨n, c⟩ := y
    unfold fastStep at he
    split at he
    · exact ih e he
    · cases hdes : descend (n, c) with
      | error err => rw [hdes] at he; exact ih e he
      | ok l =>
        cases l with
        | nil => rw [hdes] at he; exact ih e he
        | cons e0 tail =>
          rw [hdes] at he
          rcases List.mem_cons.mp he with rfl | he'
          · exact hQ (n, c) e tail hdes
          · exact ih e he'

theorem fast_depth_invariant (w : Walker) (D : Nat)
    (hD : w.filter_opts.max_depth = some D) :
    ∀ (fuel : Nat) (t : FS) (p : List String) (d : Nat) (l : List TreeEntry),
      w.walk_fast_unix_recursive fuel p d t = .ok l → d ≤ D →
      depthOkEntries D l = true ∧ ∀ e ∈ l, e.depth = d := by
  intro fuel
  induction fuel with
  | zero => intro t p d l h _; simp [Walker.walk_fast_unix_recursive] at h
  | succ fuel ih =>
    intro t p d l h hdle
    have hnd : (match w.filter_opts.max_depth with
                | some dd => decide (dd < d) | none => false) = false := by
      rw [hD]
      simp only [decide_eq_false_iff_not]
      omega
    cases hstat : t.meta.statOk with
    | false =>
      simp [Walker.walk_fast_unix_recursive, hnd, hstat] at h
    | true =>
      simp only [Walker.walk_fast_unix_recursive, hnd, Bool.false_eq_true,
        if_false, hstat, Bool.not_true, Except.ok.injEq] at h
      subst h
      set kids := (if t.isDir &&
          (match w.filter_opts.max_depth with
           | some dd => decide (d < dd) | none => true) then
            if t.readableB then
              fastStep w.filter_opts.show_hidden
                (fun x =>
                  Walker.walk_fast_unix_recursive w fuel (p ++ [x.1]) (d + 1) x.2)
                t.childList
            else []
          else []) with hkids
      have hkid_spec : ∀ e ∈ kids, depthOkEntry D e = true ∧ e.depth = d + 1 := by
        intro e he
        rw [hkids] at he
        by_cases hcond : (t.isDir &&
            (match w.filter_opts.max_depth with
             | some dd => decide (d < dd) | none => true)) = true
        · rw [hcond] at he
          simp only [if_true] at he
          cases hrd : t.readableB with
          | false => rw [hrd] at he; simp at he
          | true =>
            rw [hrd] at he
            simp only [if_true] at he
            have hdlt : d < D := by
              rw [hD] at hcond
              simp only [Bool.and_eq_true, decide_eq_true_eq] at hcond
              exact hcond.2
            refine fastStep_mem w.filter_opts.show_hidden _
              (fun e => depthOkEntry D e = true ∧ e.depth = d + 1) ?_
              t.childList e he
            intro x e0 tail hdes
            obtain ⟨hok, hdep⟩ := ih x.2 (p ++ [x.1]) (d + 1) (e0 :: tail)
              hdes (by omega)
            exact ⟨(depthOkEntries_forall D _).mp hok e0 (List.mem_cons_self _ _),
              hdep e0 (List.mem_cons_self _ _)⟩
        · rw [Bool.not_eq_true] at hcond
          rw [hcond] at he
          simp at he
      constructor
      · have hkok : depthOkEntries D kids = true :=
          (depthOkEntries_forall D kids).mpr (fun e he => (hkid_spec e he).1)
      -- the singleton root list
        have hroot : depthOkEntry D
            ((w.create_entry p t.isDir t.meta d).withChildren kids) = true := by
          simp only [Walker.create_entry, TreeEntry.withChildren, depthOkEntry,
            Bool.and_eq_true, decide_eq_true_eq]
          refine ⟨⟨hdle, ?_⟩, hkok⟩
          by_cases hdD : d = D
          · have hkids_nil : kids = [] := by
              rw [hkids]
              have : (match w.filter_opts.max_depth with
                      | some dd => decide (d < dd) | none => true) = false := by
                rw [hD]
                simp only [decide_eq_false_iff_not]
                omega
              rw [this]
              simp
            simp [hkids_nil, hdD]
          · have : (d == D) = false := by
              simp only [beq_eq_false_iff_ne, ne_eq]
              exact hdD
            simp [this]
        simp [depthOkEntries, hroot]
      · intro e he
        rcases List.mem_cons.mp he with rfl | he'
        · rfl
        · simp at he'

/-- C5: with max depth `D`, every entry of the returned tree has depth
at most `D`, directories at depth `D` have no children, and the
returned roots have depth 0 — for the Standard/Full buffered walk and
the Fast walk alike. -/
theorem C5_depth_bound (w : Walker) (now : Nat) (p : List String) (t : FS)
    (D : Nat) (l : List TreeEntry)
    (hD : w.filter_opts.max_depth = some D) :
    (w.walk_standard now p t = .ok l →
      depthOkEntries D l = true ∧ ∀ e ∈ l, e.depth = 0) ∧
    (w.walk_fast_unix p t = .ok l →
      depthOkEntries D l = true ∧ ∀ e ∈ l, e.depth = 0) := by
  constructor
  · intro h
    unfold Walker.walk_standard at h
    cases hstat : t.meta.statOk with
    | false => rw [hstat] at h; simp at h
    | true =>
      rw [hstat] at h
      simp only [Bool.not_true, Bool.false_eq_true, if_false] at h
      cases hk : w.rootChildren now p t with
      | error err => rw [hk] at h; simp at h
      | ok kids =>
        rw [hk] at h
        have hkind : depthOkEntries D kids = true ∧
            (D = 0 → kids = []) ∧ ∀ e ∈ kids, e.depth = 1 := by
          unfold Walker.rootChildren at hk
          cases hdir : t.isDir with
          | false =>
            rw [hdir] at hk
            simp only [Bool.false_eq_true, if_false, Except.ok.injEq] at hk
            subst hk
            exact ⟨rfl, fun _ => rfl, by simp⟩
          | true =>
            rw [hdir] at hk
            simp only [if_true] at hk
            obtain ⟨h1, h2⟩ := pdc_depth_invariant w now D hD (FS.size t) t p 0
              kids hk
            refine ⟨h1, ?_, by simpa using h2⟩
            intro hD0
            refine pdc_stop w now p 0 t ?_ (FS.size t) kids hk
            rw [hD, hD0]
            simp
        obtain ⟨hkok, hk0, hkdep⟩ := hkind
        have hroot : depthOkEntry D
            ((w.create_entry p t.isDir t.meta 0).withChildren kids) = true := by
          simp only [Walker.create_entry, TreeEntry.withChildren, depthOkEntry,
            Bool.and_eq_true, decide_eq_true_eq]
          refine ⟨⟨by omega, ?_⟩, hkok⟩
          by_cases hD0 : D = 0
          · have := hk0 hD0
            subst this
            split
            · rfl
            · rfl
          · have hbD : (0 == D) = false := by
              simp only [beq_eq_false_iff_ne, ne_eq]
              omega
            split
            · next hcond => exact absurd hcond.2 (by simp [hbD])
            · rfl
        replace h :
            (if (w.should_include p t.isDir t.meta now || !kids.isEmpty) = true then
               Except.ok [(w.create_entry p t.isDir t.meta 0).withChildren kids]
             else (Except.ok [] : Except String (List TreeEntry))) = Except.ok l := h
        split at h
        · simp only [Except.ok.injEq] at h
          subst h
          exact ⟨by simp [depthOkEntries, hroot], by
            intro e he
            rcases List.mem_cons.mp he with rfl | he'
            · rfl
            · simp at he'⟩
        · simp only [Except.ok.injEq] at h
          subst h
          exact ⟨rfl, by simp⟩
  · intro h
    exact fast_depth_invariant w D hD (FS.size t) t p 0 l h (by omega)

/-- C5 witness: a concrete depth-1 walk of a depth-2 tree, for both
strategies. -/
theorem C5_depth_bound_witness :
    (depthOkEntries 1
      (match (⟨{ optsAll with max_depth := some 1 }, none, 1, 1073741824,
               false, false, .Standard⟩ : Walker).walk_standard 0 ["r"] tSmall with
       | .ok l => l
       | .error _ => []) = true) ∧
    (depthOkEntries 1
      (match (⟨{ optsAll with max_depth := some 1 }, none, 1, 1073741824,
               false, false, .Standard⟩ : Walker).walk_fast_unix ["r"] tSmall with
       | .ok l => l
       | .error _ => []) = true) := by
  constructor
  · obtain ⟨l, hl⟩ : ∃ l,
        (⟨{ optsAll with max_depth := some 1 }, none, 1, 1073741824,
          false, false, .Standard⟩ : Walker).walk_standard 0 ["r"] tSmall = .ok l :=
      ⟨_, rfl⟩
    rw [hl]
    exact ((C5_depth_bound _ 0 ["r"] tSmall 1 l rfl).1 hl).1
  · obtain ⟨l, hl⟩ : ∃ l,
        (⟨{ optsAll with max_depth := some 1 }, none, 1, 1073741824,
          false, false, .Standard⟩ : Walker).walk_fast_unix ["r"] tSmall = .ok l :=
      ⟨_, rfl⟩
    rw [hl]
    exact ((C5_depth_bound _ 0 ["r"] tSmall 1 l rfl).2 hl).1

/-! Per-level cap invariants. -/

theorem withChildren_is_dir (e : TreeEntry) (ch : List TreeEntry) :
    (e.withChildren ch).is_dir = e.is_dir := by
  cases e; rfl

theorem capOkEntries_forall (N : Nat) :
    ∀ l : List TreeEntry,
      capOkEntries N l = true ↔ ∀ e ∈ l, capOkEntry N e = true := by
  intro l
  induction l with
  | nil => simp [capOkEntries]
  | cons e rest ih =>
    simp [capOkEntries, Bool.and_eq_true, ih, List.forall_mem_cons]

theorem limitEntries_count_files (f : FilterOptions) (N : Nat)
    (hmf : f.max_files = some N) (hmd : f.max_dirs = none) :
    ∀ (l : List (String × FS)) (a b : Nat), b ≤ N →
      (limitEntries f l a b).countP (fun x => !x.2.isDir) ≤ N - b := by
  intro l
  induction l with
  | nil => intro a b _; simp [limitEntries]
  | cons y rest ih =>
    intro a b hb
    obtain ⟨n, c⟩ := y
    unfold limitEntries
    cases hdir : c.isDir with
    | true =>
      rw [if_pos rfl, hmd]
      rw [if_neg (by simp)]
      rw [List.countP_cons]
      have := ih (a + 1) b hb
      simp only [hdir, Bool.not_true, Bool.false_eq_true, if_false]
      omega
    | false =>
      rw [if_neg (by simp), hmf]
      by_cases hcap : N ≤ b
      · rw [if_pos (by simp [hcap])]
        exact ih a b hb
      · rw [if_neg (by simp [hcap])]
        rw [List.countP_cons]
        have := ih a (b + 1) (by omega)
        simp only [hdir, Bool.not_false, if_true]
        omega

theorem limitEntries_filter_dirs (f : FilterOptions)
    (hmd : f.max_dirs = none) :
    ∀ (l : List (String × FS)) (a b : Nat),
      (limitEntries f l a b).filter (fun x => x.2.isDir) =
        l.filter (fun x => x.2.isDir) := by
  intro l
  induction l with
  | nil => intro a b; simp [limitEntries]
  | cons y rest ih =>
    intro a b
    obtain ⟨n, c⟩ := y
    unfold limitEntries
    cases hdir : c.isDir with
    | true =>
      rw [if_pos rfl, hmd]
      rw [if_neg (by simp)]
      rw [List.filter_cons, List.filter_cons]
      simp only [hdir, if_true]
      rw [ih]
    | false =>
      rw [if_neg (by simp)]
      split
      · rw [ih]
        rw [List.filter_cons]
        simp [hdir]
      · rw [List.filter_cons, List.filter_cons]
        simp only [hdir, Bool.false_eq_true, if_false]
        rw [ih]

theorem limitEntries_sublist (f : FilterOptions) :
    ∀ (l : List (String × FS)) (a b : Nat),
      (limitEntries f l a b).Sublist l := by
  intro l
  induction l with
  | nil => intro a b; simp [limitEntries]
  | cons y rest ih =>
    intro a b
    obtain ⟨n, c⟩ := y
    unfold limitEntries
    cases hdir : c.isDir with
    | true =>
      rw [if_pos rfl]
      split
      · exact (ih a b).cons _
      · exact (ih (a + 1) b).cons₂ _
    | false =>
      rw [if_neg (by simp)]
      split
      · exact (ih a b).cons _
      · exact (ih a (b + 1)).cons₂ _

theorem orderEntries_perm (w : Walker) (p : List String) (depth : Nat)
    (ds fls : List (String × FS)) :
    (w.orderEntries p depth ds fls).Perm (ds ++ fls) := by
  unfold Walker.orderEntries
  cases hs : w.filter_opts.sort_by with
  | none => exact List.Perm.refl _
  | some k =>
    have h1 := List.mergeSort_perm
      ((ds ++ fls).map (fun x => (x, sortRecord p depth x.1 x.2)))
      (fun a b =>
        !(compare_entries a.2 b.2 k w.filter_opts.reverse_sort == Ordering.gt))
    have h2 := h1.map (fun x => x.1)
    rw [List.map_map] at h2
    have hmapid : ∀ l : List (String × FS),
        List.map ((fun x => x.1) ∘ fun x => (x, sortRecord p depth x.1 x.2)) l = l := by
      intro l
      induction l with
      | nil => rfl
      | cons a tl iht => simp [iht]
    rw [hmapid (ds ++ fls)] at h2
    exact h2

theorem pdcStep_count_files (gitig : Bool)
    (procEnt : String × FS → Except String (Option TreeEntry))
    (descend : String × FS → Except String (List TreeEntry))
    (hp : ∀ x en, procEnt x = .ok (some en) → en.is_dir = x.2.isDir) :
    ∀ (out : List (String × FS)) (l : List TreeEntry),
      pdcStep gitig procEnt descend out = .ok l →
      l.countP (fun e => !e.is_dir) ≤ out.countP (fun x => !x.2.isDir) := by
  intro out
  induction out with
  | nil =>
    intro l h
    simp only [pdcStep, Except.ok.injEq] at h
    subst h
    simp
  | cons y rest ih =>
    intro l h
    have hmono : rest.countP (fun x => !x.2.isDir) ≤
        (y :: rest).countP (fun x => !x.2.isDir) := by
      rw [List.countP_cons]
      omega
    unfold pdcStep at h
    cases hy : procEnt y with
    | error err =>
      rw [hy] at h
      cases gitig with
      | true => exact le_trans (ih l (by simpa using h)) hmono
      | false => simp at h
    | ok oe =>
      rw [hy] at h
      cases oe with
      | none => exact le_trans (ih l (by simpa using h)) hmono
      | some en =>
        replace h :
            (if en.is_dir = true then
              match descend y with
              | .error err => .error err
              | .ok kids =>
                match pdcStep gitig procEnt descend rest with
                | .error err => .error err
                | .ok others => .ok (en.withChildren kids :: others)
            else
              match pdcStep gitig procEnt descend rest with
              | .error err => .error err
              | .ok others => .ok (en :: others)) = Except.ok l := h
        cases hd : en.is_dir with
        | true =>
          rw [hd] at h
          simp only [if_true] at h
          cases hdes : descend y with
          | error err => rw [hdes] at h; simp at h
          | ok kids =>
            rw [hdes] at h
            cases hstep : pdcStep gitig procEnt descend rest with
            | error err => rw [hstep] at h; simp at h
            | ok others =>
              rw [hstep] at h
              simp only [Except.ok.injEq] at h
              subst h
              rw [List.countP_cons]
              have hdir2 : (!(en.withChildren kids).is_dir) = false := by
                rw [withChildren_is_dir, hd]
                rfl
              rw [hdir2]
              simpa using le_trans (ih others hstep) hmono
        | false =>
          rw [hd] at h
          simp only [Bool.false_eq_true, if_false] at h
          cases hstep : pdcStep gitig procEnt descend rest with
          | error err => rw [hstep] at h; simp at h
          | ok others =>
            rw [hstep] at h
            simp only [Except.ok.injEq] at h
            subst h
            rw [List.countP_cons, List.countP_cons]
            have hydir : (!y.2.isDir) = true := by
              rw [← hp y en hy, hd]
              rfl
            have hend : (!en.is_dir) = true := by rw [hd]; rfl
            rw [hydir, hend]
            have := ih others hstep
            simp only [if_true]
            omega

/-- Every file cap obeyed by the lister output. -/
theorem read_directory_count_files (w : Walker) (now : Nat) (N : Nat)
    (hmf : w.filter_opts.max_files = some N)
    (hmd : w.filter_opts.max_dirs = none) (p : List String) (t : FS)
    (depth : Nat) (out : List (String × FS))
    (hro : w.read_directory now p t depth = .ok out) :
    out.countP (fun x => !x.2.isDir) ≤ N := by
  cases t with
  | file m => simp [Walker.read_directory] at hro
  | dir m r cs =>
    cases r with
    | false => simp [Walker.read_directory] at hro
    | true =>
      simp only [Walker.read_directory] at hro
      cases hc : w.collectChildren now p cs with
      | error e => rw [hc] at hro; simp at hro
      | ok pair =>
        obtain ⟨ds, fls⟩ := pair
        rw [hc] at hro
        simp only [Except.ok.injEq] at hro
        subst hro
        have := limitEntries_count_files w.filter_opts N hmf hmd
          (w.orderEntries p depth ds fls) 0 0 (by omega)
        simpa using this

theorem pdc_cap_invariant (w : Walker) (now N : Nat)
    (hmf : w.filter_opts.max_files = some N)
    (hmd : w.filter_opts.max_dirs = none) :
    ∀ (fuel : Nat) (t : FS) (p : List String) (d : Nat) (l : List TreeEntry),
      w.process_directory_children now fuel p d t = .ok l →
      capOkEntries N l = true ∧ l.countP (fun e => !e.is_dir) ≤ N := by
  intro fuel
  induction fuel with
  | zero => intro t p d l h; simp [Walker.process_directory_children] at h
  | succ fuel ih =>
    intro t p d l h
    cases hstop : (match w.filter_opts.max_depth with
                   | some dd => decide (dd ≤ d) | none => false) with
    | true =>
      have hl := pdc_stop w now p d t hstop (fuel + 1) l h
      subst hl
      exact ⟨rfl, by simp⟩
    | false =>
      cases hro : w.read_directory now p t (d + 1) with
      | error err =>
        simp [Walker.process_directory_children, hstop, hro] at h
      | ok out =>
        rw [pdc_step_eq w now fuel p d t out hstop hro] at h
        constructor
        · refine (capOkEntries_forall N l).mpr ?_
          intro e he
          refine pdcStep_mem_spec w.filter_opts.gitignore _ _
            (fun e => capOkEntry N e = true) ?_ ?_ out l h e he
          · intro x en kids hpe hend hdes
            have hen := process_entry_some_eq w now (p ++ [x.1]) x.2 (d + 1) en hpe
            obtain ⟨hkok, hkcnt⟩ := ih x.2 (p ++ [x.1]) (d + 1) kids hdes
            subst hen
            simp only [Walker.create_entry, TreeEntry.withChildren, capOkEntry,
              Bool.and_eq_true, decide_eq_true_eq]
            exact ⟨hkcnt, hkok⟩
          · intro x en hpe hend
            have hen := process_entry_some_eq w now (p ++ [x.1]) x.2 (d + 1) en hpe
            subst hen
            simp [Walker.create_entry, capOkEntry, capOkEntries]
        · have h1 := pdcStep_count_files w.filter_opts.gitignore _ _
            (fun x en hpe => by
              rw [process_entry_some_eq w now (p ++ [x.1]) x.2 (d + 1) en hpe]
              exact create_entry_is_dir w (p ++ [x.1]) x.2.isDir x.2.meta (d + 1))
            out l h
          exact le_trans h1
            (read_directory_count_files w now N hmf hmd p t (d + 1) out hro)

/-- C6: per-level caps with `max-files = N` and `max-dirs` unset — the
cap loop keeps at most `N` files, keeps every directory, and returns a
sublist of its (already filtered and sorted) input; the sort stage is a
permutation of the filtered children; and in the walked tree every
directory's retained file children number at most `N`, independently per
directory. -/
theorem C6_per_level_caps (w : Walker) (now N : Nat)
    (hmf : w.filter_opts.max_files = some N)
    (hmd : w.filter_opts.max_dirs = none) :
    (∀ l0 : List (String × FS),
      (limitEntries w.filter_opts l0 0 0).countP (fun x => !x.2.isDir) ≤ N ∧
      (limitEntries w.filter_opts l0 0 0).filter (fun x => x.2.isDir) =
        l0.filter (fun x => x.2.isDir) ∧
      (limitEntries w.filter_opts l0 0 0).Sublist l0) ∧
    (∀ (p : List String) (depth : Nat) (ds fls : List (String × FS)),
      (w.orderEntries p depth ds fls).Perm (ds ++ fls)) ∧
    (∀ (p : List String) (t : FS) (l : List TreeEntry),
      w.walk_standard now p t = .ok l → capOkEntries N l = true) := by
  refine ⟨?_, ?_, ?_⟩
  · intro l0
    refine ⟨?_, limitEntries_filter_dirs w.filter_opts hmd l0 0 0,
      limitEntries_sublist w.filter_opts l0 0 0⟩
    have := limitEntries_count_files w.filter_opts N hmf hmd l0 0 0 (by omega)
    simpa using this
  · intro p depth ds fls
    exact orderEntries_perm w p depth ds fls
  · intro p t l h
    unfold Walker.walk_standard at h
    cases hstat : t.meta.statOk with
    | false => rw [hstat] at h; simp at h
    | true =>
      rw [hstat] at h
      simp only [Bool.not_true, Bool.false_eq_true, if_false] at h
      cases hk : w.rootChildren now p t with
      | error err => rw [hk] at h; simp at h
      | ok kids =>
        rw [hk] at h
        have hkind : capOkEntries N kids = true ∧
            kids.countP (fun e => !e.is_dir) ≤ N := by
          unfold Walker.rootChildren at hk
          cases hdir : t.isDir with
          | false =>
            rw [hdir] at hk
            simp only [Bool.false_eq_true, if_false, Except.ok.injEq] at hk
            subst hk
            exact ⟨rfl, by simp⟩
          | true =>
            rw [hdir] at hk
            simp only [if_true] at hk
            exact pdc_cap_invariant w now N hmf hmd (FS.size t) t p 0 kids hk
        obtain ⟨hkok, hkcnt⟩ := hkind
        replace h :
            (if (w.should_include p t.isDir t.meta now || !kids.isEmpty) = true then
               Except.ok [(w.create_entry p t.isDir t.meta 0).withChildren kids]
             else (Except.ok [] : Except String (List TreeEntry))) = Except.ok l := h
        split at h
        · simp only [Except.ok.injEq] at h
          subst h
          have hroot : capOkEntry N
              ((w.create_entry p t.isDir t.meta 0).withChildren kids) = true := by
            simp only [Walker.create_entry, TreeEntry.withChildren, capOkEntry,
              Bool.and_eq_true, decide_eq_true_eq]
            exact ⟨hkcnt, hkok⟩
          simp [capOkEntries, hroot]
        · simp only [Except.ok.injEq] at h
          subst h
          rfl

/-- C6 witness: the cap loop and a walk at `max-files = 1` on the
concrete small tree. -/
theorem C6_per_level_caps_witness :
    ((limitEntries { optsAll with max_files := some 1 }
        [("f1", FS.file (mTxt [65])), ("f2", FS.file (mTxt [66])),
         ("d1", FS.dir mOK true [])] 0 0).countP
      (fun x => !x.2.isDir) ≤ 1) ∧
    (capOkEntries 1
      (match (⟨{ optsAll with max_files := some 1 }, none, 1, 1073741824,
               false, false, .Standard⟩ : Walker).walk_standard 0 ["r"] tSmall with
       | .ok l => l
       | .error _ => []) = true) := by
  constructor
  · exact ((C6_per_level_caps
      ⟨{ optsAll with max_files := some 1 }, none, 1, 1073741824,
        false, false, .Standard⟩ 0 1 rfl rfl).1
      [("f1", FS.file (mTxt [65])), ("f2", FS.file (mTxt [66])),
       ("d1", FS.dir mOK true [])]).1
  · obtain ⟨l, hl⟩ : ∃ l,
        (⟨{ optsAll with max_files := some 1 }, none, 1, 1073741824,
          false, false, .Standard⟩ : Walker).walk_standard 0 ["r"] tSmall = .ok l :=
      ⟨_, rfl⟩
    rw [hl]
    exact (C6_per_level_caps _ 0 1 rfl rfl).2.2 ["r"] tSmall l hl

/-! Strategy equivalence: lemmas about the restricted option set. -/

theorem hiddenName_append (p : List String) (n : String) :
    hiddenName (p ++ [n]) = startsDot n := by
  unfold hiddenName
  rw [List.getLast?_concat]

/-- Under the restricted options the whole filter chain reduces to the
hidden-file policy. -/
theorem should_include_restricted (w : Walker)
    (hrf : NoComplexFilters w.filter_opts) (hgi : w.gitignore = none)
    (p : List String) (is_dir : Bool) (m : Meta) (now : Nat) :
    w.should_include p is_dir m now =
      (w.filter_opts.show_hidden || !hiddenName p) := by
  obtain ⟨h1, h2, h3, h4, h5, h6, h7, h8, h9, h10, h11, h12, h13⟩ := hrf
  simp only [Walker.should_include, hgi]
  simp only [FilterOptions.should_include, FilterOptions.matches_search,
    h1, h2, h3, h4, h5, h6, h7, h8, h9, h10]
  cases hmod : m.modified with
  | none =>
    cases hsh : w.filter_opts.show_hidden <;> cases hhid : hiddenName p <;>
      simp [hsh, hhid, hmod]
  | some tt =>
    cases hsh : w.filter_opts.show_hidden <;> cases hhid : hiddenName p <;>
      simp [hsh, hhid, hmod]

theorem limitEntries_nolimit (f : FilterOptions) (hmd : f.max_dirs = none)
    (hmf : f.max_files = none) :
    ∀ (l : List (String × FS)) (a b : Nat), limitEntries f l a b = l := by
  intro l
  induction l with
  | nil => intro a b; rfl
  | cons y rest ih =>
    intro a b
    obtain ⟨n, c⟩ := y
    unfold limitEntries
    cases hdir : c.isDir with
    | true =>
      rw [if_pos rfl, hmd]
      rw [if_neg (by simp)]
      rw [ih]
    | false =>
      rw [if_neg (by simp), hmf]
      rw [if_neg (by simp)]
      rw [ih]

theorem FS.healthy_statOk (t : FS) (h : FS.healthy t = true) :
    t.meta.statOk = true := by
  cases t with
  | file m => simp only [FS.healthy, Bool.and_eq_true] at h; exact h.1
  | dir m r cs => simp only [FS.healthy, Bool.and_eq_true] at h; exact h.1.1.1

theorem FS.healthy_entryMetaOk (t : FS) (h : FS.healthy t = true) :
    t.meta.entryMetaOk = true := by
  cases t with
  | file m => simp only [FS.healthy, Bool.and_eq_true] at h; exact h.2
  | dir m r cs => simp only [FS.healthy, Bool.and_eq_true] at h; exact h.1.1.2

theorem healthyChildren_mem :
    ∀ (cs : List (String × FS)), healthyChildren cs = true →
      ∀ x ∈ cs, FS.healthy x.2 = true := by
  intro cs
  induction cs with
  | nil => intro _ x hx; simp at hx
  | cons y rest ih =>
    intro h x hx
    obtain ⟨n, c⟩ := y
    simp only [healthyChildren, Bool.and_eq_true] at h
    rcases List.mem_cons.mp hx with rfl | hx'
    · exact h.1
    · exact ih h.2 x hx'

/-- Under the restricted options, listing a healthy directory returns
exactly the hidden-filtered directories followed by the hidden-filtered
files. -/
theorem read_directory_restricted (w : Walker) (now : Nat)
    (hrf : NoComplexFilters w.filter_opts) (hgi : w.gitignore = none)
    (p : List String) (m : Meta) (cs : List (String × FS)) (depth : Nat)
    (hmeta : ∀ x ∈ cs, x.2.meta.entryMetaOk = true) :
    w.read_directory now p (.dir m true cs) depth =
      .ok (cs.filter (fun x => x.2.isDir &&
            (w.filter_opts.show_hidden || !startsDot x.1)) ++
          cs.filter (fun x => !x.2.isDir &&
            (w.filter_opts.show_hidden || !startsDot x.1))) := by
  have hpred : ∀ x ∈ cs,
      w.should_include (p ++ [x.1]) x.2.isDir x.2.meta now =
        (w.filter_opts.show_hidden || !startsDot x.1) := by
    intro x _
    rw [should_include_restricted w hrf hgi, hiddenName_append]
  simp only [Walker.read_directory]
  rw [collectChildren_eq w now p cs hmeta]
  have hfd : cs.filter (fun x => x.2.isDir &&
      w.should_include (p ++ [x.1]) x.2.isDir x.2.meta now) =
      cs.filter (fun x => x.2.isDir &&
      (w.filter_opts.show_hidden || !startsDot x.1)) := by
    refine List.filter_congr ?_
    intro x hx
    rw [hpred x hx]
  have hff : cs.filter (fun x => !x.2.isDir &&
      w.should_include (p ++ [x.1]) x.2.isDir x.2.meta now) =
      cs.filter (fun x => !x.2.isDir &&
      (w.filter_opts.show_hidden || !startsDot x.1)) := by
    refine List.filter_congr ?_
    intro x hx
    rw [hpred x hx]
  rw [hfd, hff]
  have hsort : w.filter_opts.sort_by = none := hrf.1
  have hmd : w.filter_opts.max_dirs = none := hrf.2.2.2.2.2.2.2.2.2.2.1
  have hmf : w.filter_opts.max_files = none := hrf.2.2.2.2.2.2.2.2.2.2.2.1
  simp only [Walker.orderEntries, hsort]
  rw [limitEntries_nolimit w.filter_opts hmd hmf]

theorem filter_dirs_files_perm (P : String × FS → Bool)
    (cs : List (String × FS)) :
    (cs.filter (fun x => x.2.isDir && P x) ++
      cs.filter (fun x => !x.2.isDir && P x)).Perm (cs.filter P) := by
  have h1 := List.filter_append_perm (fun x => x.2.isDir) (cs.filter P)
  rw [List.filter_filter, List.filter_filter] at h1
  exact h1

theorem specVisitPathsL_eq (f : FilterOptions) (p : List String) (d : Nat) :
    ∀ cs : List (String × FS),
      specVisitPathsL f p d cs =
        ((cs.filter (fun x => f.show_hidden || !startsDot x.1)).map
          (fun x => specVisitPaths f (p ++ [x.1]) (d + 1) x.2)).flatten := by
  intro cs
  induction cs with
  | nil => rfl
  | cons y rest ih =>
    obtain ⟨n, c⟩ := y
    unfold specVisitPathsL
    rw [List.filter_cons]
    cases hsh : f.show_hidden with
    | true => simp [hsh, ih]
    | false =>
      cases hst : startsDot n with
      | true => simp [hsh, hst, ih]
      | false => simp [hsh, hst, ih]

theorem pathsOfEntries_cons (e : TreeEntry) (l : List TreeEntry) :
    pathsOfEntries (e :: l) = pathsOfEntry e ++ pathsOfEntries l := rfl

theorem create_withChildren_paths (w : Walker) (p : List String)
    (is_dir : Bool) (m : Meta) (d : Nat) (kids : List TreeEntry) :
    pathsOfEntry ((w.create_entry p is_dir m d).withChildren kids) =
      p :: pathsOfEntries kids := rfl

theorem create_entry_paths (w : Walker) (p : List String)
    (is_dir : Bool) (m : Meta) (d : Nat) :
    pathsOfEntry (w.create_entry p is_dir m d) = [p] := rfl

/-- The fast child loop emits, in order, the head of each non-hidden
child's successful recursive walk; its path lists concatenate to the
spec's visit lists. -/
theorem fastStep_paths (f : FilterOptions)
    (descend : String × FS → Except String (List TreeEntry))
    (p : List String) (d : Nat) :
    ∀ cs : List (String × FS),
      (∀ x ∈ cs, ¬(!f.show_hidden && startsDot x.1) = true →
        ∃ e, descend x = .ok [e] ∧
          pathsOfEntry e = specVisitPaths f (p ++ [x.1]) (d + 1) x.2) →
      pathsOfEntries (fastStep f.show_hidden descend cs) =
        specVisitPathsL f p d cs := by
  intro cs
  induction cs with
  | nil => intro _; rfl
  | cons y rest ih =>
    intro hch
    obtain ⟨n, c⟩ := y
    have hrest := ih (fun x hx h => hch x (List.mem_cons_of_mem _ hx) h)
    unfold fastStep
    unfold specVisitPathsL
    cases hhid : (!f.show_hidden && startsDot n) with
    | true =>
      rw [if_pos rfl]
      rw [hrest]
      rfl
    | false =>
      rw [if_neg (by simp)]
      obtain ⟨e, hdes, hpe⟩ := hch (n, c) (List.mem_cons_self _ _)
        (by simp [hhid])
      rw [hdes]
      rw [pathsOfEntries_cons, hrest, hpe]
      rfl

/-- On a healthy tree the fast walk returns exactly one entry whose path
list is the spec's visit list. -/
theorem fast_spec (w : Walker) :
    ∀ (fuel : Nat) (t : FS) (p : List String) (d : Nat),
      FS.healthy t = true → FS.size t ≤ fuel →
      (match w.filter_opts.max_depth with
       | some D => d ≤ D | none => True) →
      ∃ e, w.walk_fast_unix_recursive fuel p d t = .ok [e] ∧
        pathsOfEntry e = specVisitPaths w.filter_opts p d t := by
  intro fuel
  induction fuel with
  | zero =>
    intro t p d _ hsz _
    have := FS.size_pos t
    omega
  | succ fuel ih =>
    intro t p d hh hsz hdle
    have hnd : (match w.filter_opts.max_depth with
                | some dd => decide (dd < d) | none => false) = false := by
      cases hmd : w.filter_opts.max_depth with
      | none => rfl
      | some D =>
        rw [hmd] at hdle
        simp only [decide_eq_false_iff_not]
        omega
    have hstat := FS.healthy_statOk t hh
    refine ⟨(w.create_entry p t.isDir t.meta d).withChildren
      (if t.isDir && (match w.filter_opts.max_depth with
           | some dd => decide (d < dd) | none => true) then
         if t.readableB then
           fastStep w.filter_opts.show_hidden
             (fun x =>
               Walker.walk_fast_unix_recursive w fuel (p ++ [x.1]) (d + 1) x.2)
             t.childList
         else []
       else []), ?_, ?_⟩
    · simp only [Walker.walk_fast_unix_recursive, hnd, Bool.false_eq_true,
        if_false, hstat, Bool.not_true]
    · cases t with
      | file m =>
        simp only [FS.isDir, Bool.false_and, Bool.false_eq_true, if_false]
        rw [create_withChildren_paths]
        rfl
      | dir m r cs =>
        simp only [FS.healthy, Bool.and_eq_true] at hh
        obtain ⟨⟨⟨_, _⟩, hr⟩, hch⟩ := hh
        subst hr
        cases hlist : (match w.filter_opts.max_depth with
                       | some dd => decide (d < dd) | none => true) with
        | false =>
          simp only [FS.isDir, Bool.true_and, hlist, Bool.false_eq_true,
            if_false]
          rw [create_withChildren_paths]
          simp only [specVisitPaths, hlist, Bool.false_eq_true, if_false]
          rfl
        | true =>
          simp only [FS.isDir, Bool.true_and, hlist, if_true, FS.readableB,
            FS.childList]
          rw [create_withChildren_paths]
          simp only [specVisitPaths, hlist, if_true]
          rw [fastStep_paths w.filter_opts _ p d cs]
          intro x hx _
          refine ih x.2 (p ++ [x.1]) (d + 1)
            (healthyChildren_mem cs hch x hx) ?_ ?_
          · have h1 := FS.sizeL_mem cs x hx
            have h2 : FS.size (FS.dir m true cs) = FS.sizeL cs + 1 := rfl
            omega
          · cases hmd : w.filter_opts.max_depth with
            | none => trivial
            | some D =>
              rw [hmd] at hlist
              simp only [decide_eq_true_eq] at hlist
              omega

/-- Path multiset of the child loop: with every child processed and
descended successfully, the emitted paths are a permutation of the
per-child path lists in listing order. -/
theorem pdcStep_paths (gitig : Bool)
    (procEnt : String × FS → Except String (Option TreeEntry))
    (descend : String × FS → Except String (List TreeEntry))
    (g : String × FS → List (List String)) :
    ∀ out : List (String × FS),
      (∀ x ∈ out, ∃ en, procEnt x = .ok (some en) ∧ en.is_dir = x.2.isDir ∧
        (x.2.isDir = true →
          ∃ kids, descend x = .ok kids ∧
            (pathsOfEntry (en.withChildren kids)).Perm (g x)) ∧
        (x.2.isDir = false → (pathsOfEntry en).Perm (g x))) →
      ∃ l, pdcStep gitig procEnt descend out = .ok l ∧
        (pathsOfEntries l).Perm (List.map g out).flatten := by
  intro out
  induction out with
  | nil => intro _; exact ⟨[], rfl, by simp [pathsOfEntries]⟩
  | cons y rest ih =>
    intro hch
    obtain ⟨l', hstep, hperm⟩ :=
      ih (fun x hx => hch x (List.mem_cons_of_mem _ hx))
    obtain ⟨en, hpe, hend, hdir, hfile⟩ := hch y (List.mem_cons_self _ _)
    have hflat : (List.map g (y :: rest)).flatten =
        g y ++ (List.map g rest).flatten := by simp
    cases hyd : y.2.isDir with
    | true =>
      obtain ⟨kids, hdes, hkperm⟩ := hdir hyd
      refine ⟨en.withChildren kids :: l', ?_, ?_⟩
      · unfold pdcStep
        rw [hpe]
        show (if en.is_dir = true then
                match descend y with
                | Except.error err => Except.error err
                | Except.ok kids2 =>
                  match pdcStep gitig procEnt descend rest with
                  | Except.error err => Except.error err
                  | Except.ok others => Except.ok (en.withChildren kids2 :: others)
              else
                match pdcStep gitig procEnt descend rest with
                | Except.error err => Except.error err
                | Except.ok others => Except.ok (en :: others)) =
            Except.ok (en.withChildren kids :: l')
        rw [if_pos (by rw [hend, hyd]), hdes, hstep]
      · rw [pathsOfEntries_cons, hflat]
        exact List.Perm.append hkperm hperm
    | false =>
      refine ⟨en :: l', ?_, ?_⟩
      · unfold pdcStep
        rw [hpe]
        show (if en.is_dir = true then
                match descend y with
                | Except.error err => Except.error err
                | Except.ok kids2 =>
                  match pdcStep gitig procEnt descend rest with
                  | Except.error err => Except.error err
                  | Except.ok others => Except.ok (en.withChildren kids2 :: others)
              else
                match pdcStep gitig procEnt descend rest with
                | Except.error err => Except.error err
                | Except.ok others => Except.ok (en :: others)) =
            Except.ok (en :: l')
        rw [if_neg (by rw [hend, hyd]; simp), hstep]
      · rw [pathsOfEntries_cons, hflat]
        exact List.Perm.append (hfile hyd) hperm

/-- On a healthy directory, under the restricted options, the standard
child processor succeeds and its paths are a permutation of the spec's
visit lists of the children. -/
theorem std_spec (w : Walker) (now : Nat)
    (hrf : NoComplexFilters w.filter_opts) (hgi : w.gitignore = none) :
    ∀ (fuel : Nat) (t : FS) (p : List String) (d : Nat),
      FS.healthy t = true → t.isDir = true → FS.size t ≤ fuel →
      ∃ l, w.process_directory_children now fuel p d t = .ok l ∧
        (pathsOfEntries l).Perm
          (if (match w.filter_opts.max_depth with
               | some D => decide (d < D) | none => true) = true then
             specVisitPathsL w.filter_opts p d t.childList
           else []) := by
  intro fuel
  induction fuel with
  | zero =>
    intro t p d _ _ hsz
    have := FS.size_pos t
    omega
  | succ fuel ih =>
    intro t p d hh hdir hsz
    cases t with
    | file m => simp [FS.isDir] at hdir
    | dir m r cs =>
      simp only [FS.healthy, Bool.and_eq_true] at hh
      obtain ⟨⟨⟨hms, hme⟩, hr⟩, hch⟩ := hh
      subst hr
      cases hcond : (match w.filter_opts.max_depth with
                     | some D => decide (d < D) | none => true) with
      | false =>
        have hstop : (match w.filter_opts.max_depth with
                      | some dd => decide (dd ≤ d) | none => false) = true := by
          cases hmd : w.filter_opts.max_depth with
          | none => rw [hmd] at hcond; simp at hcond
          | some D =>
            rw [hmd] at hcond
            simp only [decide_eq_false_iff_not] at hcond
            simp only [decide_eq_true_eq]
            omega
        refine ⟨[], ?_, by simp [pathsOfEntries]⟩
        simp [Walker.process_directory_children, hstop]
      | true =>
        have hstop : (match w.filter_opts.max_depth with
                      | some dd => decide (dd ≤ d) | none => false) = false := by
          cases hmd : w.filter_opts.max_depth with
          | none => rfl
          | some D =>
            rw [hmd] at hcond
            simp only [decide_eq_true_eq] at hcond
            simp only [decide_eq_false_iff_not]
            omega
        have hmeta : ∀ x ∈ cs, x.2.meta.entryMetaOk = true := fun x hx =>
          FS.healthy_entryMetaOk x.2 (healthyChildren_mem cs hch x hx)
        have hread := read_directory_restricted w now hrf hgi p m cs (d + 1) hmeta
        set P : String × FS → Bool :=
          fun x => w.filter_opts.show_hidden || !startsDot x.1 with hP
        set dsF := cs.filter (fun x => x.2.isDir && P x) with hdsF
        set flsF := cs.filter (fun x => !x.2.isDir && P x) with hflsF
        have hhyp : ∀ x ∈ dsF ++ flsF, ∃ en,
            w.process_entry now (p ++ [x.1]) x.2 (d + 1) = .ok (some en) ∧
            en.is_dir = x.2.isDir ∧
            (x.2.isDir = true → ∃ kids,
              w.process_directory_children now fuel (p ++ [x.1]) (d + 1) x.2 =
                .ok kids ∧
              (pathsOfEntry (en.withChildren kids)).Perm
                (specVisitPaths w.filter_opts (p ++ [x.1]) (d + 1) x.2)) ∧
            (x.2.isDir = false → (pathsOfEntry en).Perm
              (specVisitPaths w.filter_opts (p ++ [x.1]) (d + 1) x.2)) := by
          intro x hx
          have hxcs : x ∈ cs ∧ P x = true := by
            rcases List.mem_append.mp hx with hx' | hx'
            · have := List.mem_filter.mp hx'
              refine ⟨this.1, ?_⟩
              have h2 := this.2
              simp only [Bool.and_eq_true] at h2
              exact h2.2
            · have := List.mem_filter.mp hx'
              refine ⟨this.1, ?_⟩
              have h2 := this.2
              simp only [Bool.and_eq_true] at h2
              exact h2.2
          have hxh : FS.healthy x.2 = true := healthyChildren_mem cs hch x hxcs.1
          have hxstat := FS.healthy_statOk x.2 hxh
          have hxinc : w.should_include (p ++ [x.1]) x.2.isDir x.2.meta now = true := by
            rw [should_include_restricted w hrf hgi, hiddenName_append]
            exact hxcs.2
          refine ⟨w.create_entry (p ++ [x.1]) x.2.isDir x.2.meta (d + 1),
            process_entry_ok_some w now (p ++ [x.1]) x.2 (d + 1) hxstat hxinc,
            create_entry_is_dir w (p ++ [x.1]) x.2.isDir x.2.meta (d + 1), ?_, ?_⟩
          · intro hxd
            obtain ⟨kids, hdes, hkperm⟩ := ih x.2 (p ++ [x.1]) (d + 1) hxh hxd
              (by
                have h1 := FS.sizeL_mem cs x hxcs.1
                have h2 : FS.size (FS.dir m true cs) = FS.sizeL cs + 1 := rfl
                omega)
            refine ⟨kids, hdes, ?_⟩
            rw [create_withChildren_paths]
            cases hx2 : x.2 with
            | file m' => rw [hx2] at hxd; simp [FS.isDir] at hxd
            | dir m' r' cs' =>
              simp only [specVisitPaths]
              rw [hx2] at hkperm
              simp only [FS.childList] at hkperm
              cases hcond2 : (match w.filter_opts.max_depth with
                             | some dd => decide (d + 1 < dd) | none => true) with
              | true =>
                rw [hcond2] at hkperm
                rw [if_pos rfl] at hkperm
                exact hkperm.cons _
              | false =>
                rw [hcond2] at hkperm
                rw [if_neg (by simp)] at hkperm
                exact hkperm.cons _
          · intro hxd
            rw [create_entry_paths]
            cases hx2 : x.2 with
            | dir m' r' cs' => rw [hx2] at hxd; simp [FS.isDir] at hxd
            | file m' => exact List.Perm.refl _
        obtain ⟨l, hstep, hperm⟩ := pdcStep_paths w.filter_opts.gitignore
          (fun x => w.process_entry now (p ++ [x.1]) x.2 (d + 1))
          (fun x =>
            w.process_directory_children now fuel (p ++ [x.1]) (d + 1) x.2)
          (fun x => specVisitPaths w.filter_opts (p ++ [x.1]) (d + 1) x.2)
          (dsF ++ flsF) hhyp
        refine ⟨l, ?_, ?_⟩
        · rw [pdc_step_eq w now fuel p d (.dir m true cs) (dsF ++ flsF)
            hstop hread]
          exact hstep
        · rw [if_pos rfl]
          refine hperm.trans ?_
          have hp1 : (dsF ++ flsF).Perm (cs.filter P) :=
            filter_dirs_files_perm P cs
          have hp2 := (hp1.map
            (fun x => specVisitPaths w.filter_opts (p ++ [x.1]) (d + 1) x.2)).flatten
          refine hp2.trans ?_
          rw [show (FS.dir m true cs).childList = cs from rfl,
            specVisitPathsL_eq w.filter_opts p d cs]

theorem pathsOfEntries_singleton (e : TreeEntry) :
    pathsOfEntries [e] = pathsOfEntry e := by
  rw [pathsOfEntries_cons]
  show pathsOfEntry e ++ [] = _
  rw [List.append_nil]

/-- Shape of a successful standard walk whose root passes the filter. -/
theorem walk_standard_ok_shape (w : Walker) (now : Nat) (p : List String)
    (t : FS) (kids : List TreeEntry) (hstat : t.meta.statOk = true)
    (hk : w.rootChildren now p t = .ok kids)
    (hinc : w.should_include p t.isDir t.meta now = true) :
    w.walk_standard now p t =
      .ok [(w.create_entry p t.isDir t.meta 0).withChildren kids] := by
  unfold Walker.walk_standard
  rw [hstat]
  show (match w.rootChildren now p t with
        | Except.error e => Except.error e
        | Except.ok kids2 =>
          if (w.should_include p t.isDir t.meta now || !kids2.isEmpty) = true then
            Except.ok [(w.create_entry p t.isDir t.meta 0).withChildren kids2]
          else Except.ok []) =
      Except.ok [(w.create_entry p t.isDir t.meta 0).withChildren kids]
  rw [hk]
  show (if (w.should_include p t.isDir t.meta now || !kids.isEmpty) = true then
          Except.ok [(w.create_entry p t.isDir t.meta 0).withChildren kids]
        else Except.ok []) =
      Except.ok [(w.create_entry p t.isDir t.meta 0).withChildren kids]
  rw [if_pos (by rw [hinc]; rfl)]

/-- C1 (amended): under options that leave only the hidden-file policy
and the depth limit active, on a healthy tree whose root path is not
itself excluded by the hidden-file policy, the Fast walk and the
Standard walk produce the same set of paths. -/
theorem C1_fast_standard_equiv (w : Walker) (now : Nat) (p : List String)
    (t : FS) (hrf : NoComplexFilters w.filter_opts)
    (hgi : w.gitignore = none) (hh : FS.healthy t = true)
    (hroot : (w.filter_opts.show_hidden || !hiddenName p) = true) :
    ∀ q, q ∈ pathsOfRes (w.walk_fast_unix p t) ↔
      q ∈ pathsOfRes (w.walk_standard now p t) := by
  obtain ⟨e, hfe, hfp⟩ := fast_spec w (FS.size t) t p 0 hh (Nat.le_refl _)
    (by
      cases w.filter_opts.max_depth with
      | none => trivial
      | some D => exact Nat.zero_le D)
  have hfast : pathsOfRes (w.walk_fast_unix p t) =
      specVisitPaths w.filter_opts p 0 t := by
    unfold Walker.walk_fast_unix
    rw [hfe]
    show pathsOfEntries [e] = _
    rw [pathsOfEntries_cons]
    show pathsOfEntry e ++ [] = _
    rw [List.append_nil, hfp]
  have hstat := FS.healthy_statOk t hh
  have hinc : w.should_include p t.isDir t.meta now = true := by
    rw [should_include_restricted w hrf hgi]
    exact hroot
  have hstd : ∃ l, w.walk_standard now p t = .ok l ∧
      (pathsOfEntries l).Perm (specVisitPaths w.filter_opts p 0 t) := by
    cases t with
    | file m =>
      have hk : w.rootChildren now p (.file m) = .ok [] := by
        unfold Walker.rootChildren
        rfl
      refine ⟨_, walk_standard_ok_shape w now p (.file m) [] hstat hk hinc, ?_⟩
      rw [pathsOfEntries_singleton, create_withChildren_paths]
      exact List.Perm.refl _
    | dir m r cs =>
      obtain ⟨kids, hpdc, hkperm⟩ := std_spec w now hrf hgi
        (FS.size (FS.dir m r cs)) (.dir m r cs) p 0 hh rfl (Nat.le_refl _)
      have hk : w.rootChildren now p (.dir m r cs) = .ok kids := by
        unfold Walker.rootChildren
        rw [if_pos (show (FS.dir m r cs).isDir = true from rfl)]
        exact hpdc
      refine ⟨_, walk_standard_ok_shape w now p (.dir m r cs) kids hstat hk hinc, ?_⟩
      rw [pathsOfEntries_singleton, create_withChildren_paths]
      exact List.Perm.cons p hkperm
  intro q
  rw [hfast]
  obtain ⟨l, hws, hperm⟩ := hstd
  rw [show pathsOfRes (w.walk_standard now p t) = pathsOfEntries l from by
    rw [hws]
    rfl]
  exact (hperm.mem_iff).symm

/-- C1 witness: on the concrete healthy tree with default options and a
non-hidden root, a path deep in the tree is seen by both strategies. -/
theorem C1_fast_standard_equiv_witness :
    (["r", "subdir", "file2.txt"] ∈ pathsOfRes (wPlain.walk_fast_unix ["r"] tSmall) ↔
     ["r", "subdir", "file2.txt"] ∈ pathsOfRes (wPlain.walk_standard 0 ["r"] tSmall)) ∧
    ["r", "subdir", "file2.txt"] ∈ pathsOfRes (wPlain.walk_fast_unix ["r"] tSmall) := by
  constructor
  · exact C1_fast_standard_equiv wPlain 0 ["r"] tSmall
      ⟨rfl, rfl, rfl, rfl, rfl, rfl, rfl, rfl, rfl, rfl, rfl, rfl, rfl⟩
      rfl rfl rfl ["r", "subdir", "file2.txt"]
  · rw [show pathsOfRes (wPlain.walk_fast_unix ["r"] tSmall) =
        [["r"], ["r", "subdir"], ["r", "subdir", "file2.txt"],
         ["r", "file1.txt"]] from rfl]
    exact List.mem_cons_of_mem _ (List.mem_cons_of_mem _ (List.mem_cons_self _ _))

/-- C1 counterexample to the claim as stated: a hidden empty root
directory with default options — the Fast walk emits the root while the
Standard walk returns nothing, so the path sets differ. -/
theorem C1_counterexample :
    [".d"] ∈ pathsOfRes (wPlain.walk_fast_unix [".d"] tEmptyDir) ∧
    [".d"] ∉ pathsOfRes (wPlain.walk_standard 0 [".d"] tEmptyDir) := by
  constructor
  · rw [show pathsOfRes (wPlain.walk_fast_unix [".d"] tEmptyDir) = [[".d"]]
        from rfl]
    exact List.mem_cons_self _ _
  · rw [show pathsOfRes (wPlain.walk_standard 0 [".d"] tEmptyDir) =
        ([] : List (List String)) from rfl]
    exact List.not_mem_nil _

end Maram
